import Mathlib

/-!
# Verification of `cargo-bundle-licenses`

A shallow embedding of the core data model and algorithms of the
`cargo-bundle-licenses` crate, together with theorems settling the claims
about its specification.

Embedding conventions:
* Rust `String`/`&str` values are Lean `String`s; the license *parser*
  (`src/license.rs`) works on `List Char` because the source splits,
  trims and pattern-matches character-wise there.
* `cargo_metadata` types (`Package`, `Resolve`, `NodeDep`, `PackageId`)
  are modelled structurally; `PackageId` is a `Nat`.  Semver versions are
  modelled as `String`s carrying the version's total order.
* The external `spdx` crate's lenient expression parser is a parameter
  (`oracle : List Char → Option (List SpdxNode)`); the `spdx` crate
  guarantees that a rendered license requirement never contains the
  separators `/` or ` OR `, which is captured by `WfOracle`.
* Rust `HashMap`/`HashSet` are modelled as association lists / lists with
  the same insert-override and first-insert-wins semantics.
* `f32` score comparisons (`score < 0.10`, `score < 0.15` in
  `src/discovery.rs`) are idealized as exact rational comparisons and
  stated division-free (`errors * 10 < total`, `errors * 20 < total * 3`).
-/

namespace CargoBundleLicenses

/-! ## `src/license.rs`: the `License` enum -/

/-- The `License` enum from `src/license.rs`, in source declaration order
(the order matters: Rust's derived `Ord` compares variant indices first).
`File` carries the path rendered as a string. -/
inductive License where
  | Unlicense
  | BSD_0_Clause
  | CC0_1_0
  | MIT
  | X11
  | BSD_2_Clause
  | BSD_3_Clause
  | BSL_1_0
  | Apache_2_0
  | Apache_2_0_WITH_LLVM_exception
  | LGPL_2_0
  | LGPL_2_1
  | LGPL_2_1Plus
  | LGPL_3_0
  | LGPL_3_0Plus
  | MPL_1_1
  | MPL_2_0
  | GPL_2_0
  | GPL_2_0Plus
  | GPL_3_0
  | GPL_3_0Plus
  | AGPL_3_0
  | AGPL_3_0Plus
  | Zlib
  | Custom (s : String)
  | File (p : String)
  | Multiple (ls : List License)
  | Unspecified
  deriving Repr

mutual

/-- Structural equality of `License` values: the derived `PartialEq`/`Eq`. -/
def licBeq : License → License → Bool
  | .Unlicense, .Unlicense => true
  | .BSD_0_Clause, .BSD_0_Clause => true
  | .CC0_1_0, .CC0_1_0 => true
  | .MIT, .MIT => true
  | .X11, .X11 => true
  | .BSD_2_Clause, .BSD_2_Clause => true
  | .BSD_3_Clause, .BSD_3_Clause => true
  | .BSL_1_0, .BSL_1_0 => true
  | .Apache_2_0, .Apache_2_0 => true
  | .Apache_2_0_WITH_LLVM_exception, .Apache_2_0_WITH_LLVM_exception => true
  | .LGPL_2_0, .LGPL_2_0 => true
  | .LGPL_2_1, .LGPL_2_1 => true
  | .LGPL_2_1Plus, .LGPL_2_1Plus => true
  | .LGPL_3_0, .LGPL_3_0 => true
  | .LGPL_3_0Plus, .LGPL_3_0Plus => true
  | .MPL_1_1, .MPL_1_1 => true
  | .MPL_2_0, .MPL_2_0 => true
  | .GPL_2_0, .GPL_2_0 => true
  | .GPL_2_0Plus, .GPL_2_0Plus => true
  | .GPL_3_0, .GPL_3_0 => true
  | .GPL_3_0Plus, .GPL_3_0Plus => true
  | .AGPL_3_0, .AGPL_3_0 => true
  | .AGPL_3_0Plus, .AGPL_3_0Plus => true
  | .Zlib, .Zlib => true
  | .Custom a, .Custom b => a == b
  | .File a, .File b => a == b
  | .Multiple a, .Multiple b => licListBeq a b
  | .Unspecified, .Unspecified => true
  | _, _ => false

def licListBeq : List License → List License → Bool
  | [], [] => true
  | a :: as, b :: bs => licBeq a b && licListBeq as bs
  | _, _ => false

end

/-- Variant index of a `License`, in source declaration order (the
discriminant Rust's derived `Ord` compares first). -/
def licRank : License → Nat
  | .Unlicense => 0
  | .BSD_0_Clause => 1
  | .CC0_1_0 => 2
  | .MIT => 3
  | .X11 => 4
  | .BSD_2_Clause => 5
  | .BSD_3_Clause => 6
  | .BSL_1_0 => 7
  | .Apache_2_0 => 8
  | .Apache_2_0_WITH_LLVM_exception => 9
  | .LGPL_2_0 => 10
  | .LGPL_2_1 => 11
  | .LGPL_2_1Plus => 12
  | .LGPL_3_0 => 13
  | .LGPL_3_0Plus => 14
  | .MPL_1_1 => 15
  | .MPL_2_0 => 16
  | .GPL_2_0 => 17
  | .GPL_2_0Plus => 18
  | .GPL_3_0 => 19
  | .GPL_3_0Plus => 20
  | .AGPL_3_0 => 21
  | .AGPL_3_0Plus => 22
  | .Zlib => 23
  | .Custom _ => 24
  | .File _ => 25
  | .Multiple _ => 26
  | .Unspecified => 27

mutual

/-- The derived total order on `License` (`derive(Ord)`): variant index
first, then the payloads, lists compared lexicographically. -/
def licCmp : License → License → Ordering
  | .Custom a, .Custom b => compare a b
  | .File a, .File b => compare a b
  | .Multiple a, .Multiple b => licListCmp a b
  | a, b => compare (licRank a) (licRank b)

def licListCmp : List License → List License → Ordering
  | [], [] => .eq
  | [], _ :: _ => .lt
  | _ :: _, [] => .gt
  | a :: as, b :: bs =>
    match licCmp a b with
    | .eq => licListCmp as bs
    | o => o

end

/-- `a <= b` in the derived total order (used by `licenses.sort()`). -/
def licLe (a b : License) : Bool :=
  match licCmp a b with
  | .gt => false
  | _ => true

mutual

/-- The `Display` impl for `License` from `src/license.rs`.  On
`Multiple []` the source indexes `ls[0]` and panics; that case is
unreachable from the parser and rendered here as `""`. -/
def licToString : License → String
  | .Unlicense => "Unlicense"
  | .BSD_0_Clause => "0BSD"
  | .CC0_1_0 => "CC0-1.0"
  | .MIT => "MIT"
  | .X11 => "X11"
  | .BSD_2_Clause => "BSD-2-Clause"
  | .BSD_3_Clause => "BSD-3-Clause"
  | .BSL_1_0 => "BSL-1.0"
  | .Apache_2_0 => "Apache-2.0"
  | .Apache_2_0_WITH_LLVM_exception => "Apache-2.0 WITH LLVM-exception"
  | .LGPL_2_0 => "LGPL-2.0-only"
  | .LGPL_2_1 => "LGPL-2.1-only"
  | .LGPL_2_1Plus => "LGPL-2.1-or-later"
  | .LGPL_3_0 => "LGPL-3.0-only"
  | .LGPL_3_0Plus => "LGPL-3.0-or-later"
  | .MPL_1_1 => "MPL-1.1"
  | .MPL_2_0 => "MPL-2.0"
  | .GPL_2_0 => "GPL-2.0-only"
  | .GPL_2_0Plus => "GPL-2.0-or-later"
  | .GPL_3_0 => "GPL-3.0-only"
  | .GPL_3_0Plus => "GPL-3.0-or-later"
  | .AGPL_3_0 => "AGPL-3.0-only"
  | .AGPL_3_0Plus => "AGPL-3.0-or-later"
  | .Zlib => "Zlib"
  | .Custom s => s
  | .File p => "License specified in file (" ++ p ++ ")"
  | .Multiple ls =>
    match ls with
    | [] => ""
    | l :: rest => licListToString (licToString l) rest
  | .Unspecified => "No license specified"

def licListToString : String → List License → String
  | acc, [] => acc
  | acc, l :: rest => licListToString (acc ++ " / " ++ licToString l) rest

end

/-! ## `src/license.rs`: parsing (`FromStr for License`, `simple_license`,
`process_spdx_expression`)

The parser is embedded over `List Char`.  Rust's `str::trim`,
`str::contains` and `str::split` become the character-level functions
below. -/

/-- Insert `x` into `l` before the first element `y` with `le x y`
(stable insertion). -/
def insertLe {α : Type} (le : α → α → Bool) (x : α) : List α → List α
  | [] => [x]
  | y :: ys => if le x y then x :: y :: ys else y :: insertLe le x ys

/-- Stable sort by a boolean `≤`; models Rust's stable `slice::sort`,
`sort_by_key` and itertools' `sorted_by_key`. -/
def insertionSort {α : Type} (le : α → α → Bool) : List α → List α
  | [] => []
  | x :: xs => insertLe le x (insertionSort le xs)

/-- Collect the results of a fallible map; `none` as soon as one element
fails (Rust's `collect::<Result<Vec<_>, _>>()` / early `return`). -/
def optionMapM {α β : Type} (f : α → Option β) : List α → Option (List β)
  | [] => some []
  | a :: as =>
    match f a with
    | none => none
    | some b =>
      match optionMapM f as with
      | none => none
      | some bs => some (b :: bs)

/-- `str::trim`: drop Unicode whitespace from both ends. -/
def trimChars (l : List Char) : List Char :=
  ((l.dropWhile Char.isWhitespace).reverse.dropWhile Char.isWhitespace).reverse

/-- `s.split('/')` from `simple_license`: split on every `'/'`,
keeping empty segments. -/
def splitSlash : List Char → List (List Char)
  | [] => [[]]
  | c :: cs =>
    match splitSlash cs with
    | [] => [[]]
    | p :: ps => if c = '/' then [] :: p :: ps else (c :: p) :: ps

/-- `s.split(" OR ")` from `simple_license`: split on every non-overlapping
occurrence of the four characters `" OR "`, scanning left to right. -/
def splitOR : List Char → List (List Char)
  | ' ' :: 'O' :: 'R' :: ' ' :: rest => [] :: splitOR rest
  | c :: cs =>
    match splitOR cs with
    | [] => [[]]
    | p :: ps => (c :: p) :: ps
  | [] => [[]]

/-- The guard of `simple_license`'s multi-license arm:
`s.contains('/') || s.contains(" OR ")`. -/
def hasSep (l : List Char) : Bool :=
  decide ('/' ∈ l) || decide ((' ' :: 'O' :: 'R' :: ' ' :: []) <:+: l)

/-- The literal arms of the `match` in `simple_license` (the fixed SPDX
name table), applied to the trimmed input. -/
def knownLicense (t : List Char) : Option License :=
  if t = "Unlicense".toList then some .Unlicense
  else if t = "0BSD".toList then some .BSD_0_Clause
  else if t = "CC0-1.0".toList then some .CC0_1_0
  else if t = "MIT".toList then some .MIT
  else if t = "X11".toList then some .X11
  else if t = "BSD-2-Clause".toList then some .BSD_2_Clause
  else if t = "BSD-3-Clause".toList then some .BSD_3_Clause
  else if t = "BSL-1.0".toList then some .BSL_1_0
  else if t = "Apache-2.0".toList then some .Apache_2_0
  else if t = "Apache-2.0 WITH LLVM-exception".toList then
    some .Apache_2_0_WITH_LLVM_exception
  else if t = "LGPL-2.0-only".toList ∨ t = "LGPL-2.0".toList then some .LGPL_2_0
  else if t = "LGPL-2.1-only".toList ∨ t = "LGPL-2.1".toList then some .LGPL_2_1
  else if t = "LGPL-2.1-or-later".toList ∨ t = "LGPL-2.1+".toList then some .LGPL_2_1Plus
  else if t = "LGPL-3.0-only".toList ∨ t = "LGPL-3.0".toList then some .LGPL_3_0
  else if t = "LGPL-3.0-or-later".toList ∨ t = "LGPL-3.0+".toList then some .LGPL_3_0Plus
  else if t = "MPL-1.1".toList then some .MPL_1_1
  else if t = "MPL-2.0".toList then some .MPL_2_0
  else if t = "GPL-2.0-only".toList ∨ t = "GPL-2.0".toList then some .GPL_2_0
  else if t = "GPL-2.0-or-later".toList ∨ t = "GPL-2.0+".toList then some .GPL_2_0Plus
  else if t = "GPL-3.0-only".toList ∨ t = "GPL-3.0".toList then some .GPL_3_0
  else if t = "GPL-3.0-or-later".toList ∨ t = "GPL-3.0+".toList then some .GPL_3_0Plus
  else if t = "AGPL-3.0-only".toList ∨ t = "AGPL-3.0".toList then some .AGPL_3_0
  else if t = "AGPL-3.0-or-later".toList ∨ t = "AGPL-3.0+".toList then some .AGPL_3_0Plus
  else if t = "Zlib".toList then some .Zlib
  else none

/-- First-seen deduplication: `collection.retain(|elem| tmp.insert(elem))`
from `process_spdx_expression` (`tmp` a `HashSet`; an element is kept iff
it was not seen before, under the derived structural equality). -/
def dedupFirstAux (seen : List License) : List License → List License
  | [] => []
  | x :: xs =>
    if seen.any (fun y => licBeq y x) then dedupFirstAux seen xs
    else x :: dedupFirstAux (x :: seen) xs

def dedupFirst (l : List License) : List License :=
  dedupFirstAux [] l

/-- A node of an iterated `spdx::Expression` (`spdx::expression::ExprNode`):
an operator (`AND`/`OR`) or a license requirement, rendered as characters. -/
inductive SpdxNode where
  | Op (isAnd : Bool)
  | Req (r : List Char)
  deriving Repr, DecidableEq

/-- The requirement strings collected by the queue loop of
`process_spdx_expression` (operators are skipped). -/
def reqStrings (nodes : List SpdxNode) : List (List Char) :=
  nodes.filterMap fun n =>
    match n with
    | .Op _ => none
    | .Req r => some r

/-- `simple_license` from `src/license.rs`.  The recursive
`map(str::parse)` in the multi-license arm is the `recurse` parameter
(tied to the full parser in `fromStrAux`); `none` signals exhausted fuel
of that recursion, never an error of the source function. -/
def simpleLicenseF (recurse : List Char → Option License) (s : List Char) :
    Option License :=
  let t := trimChars s
  match knownLicense t with
  | some l => some l
  | none =>
    if hasSep t then
      match optionMapM recurse ((splitSlash t).flatMap splitOR) with
      | some ls => some (.Multiple (insertionSort licLe ls))
      | none => none
    else some (.Custom (String.mk t))

/-- `process_spdx_expression` from `src/license.rs`: collect the simple
license of every requirement (operators ignored), deduplicate keeping the
first occurrence, then case on how many remain; zero falls back to
`simple_license` on the whole expression string. -/
def processSpdxF (simple : List Char → Option License) (s : List Char)
    (nodes : List SpdxNode) : Option License :=
  match optionMapM simple (reqStrings nodes) with
  | none => none
  | some collection =>
    match dedupFirst collection with
    | [single] => some single
    | x :: y :: rest => some (.Multiple (x :: y :: rest))
    | [] => simple s

/-- `<License as FromStr>::from_str`, fuel-indexed.  `oracle` is the
external `spdx::expression::Expression::parse_mode(s, ParseMode::LAX)`
parser; `some nodes` is a successful parse iterated into nodes.  Fuel
only bounds the recursion of `simple_license`'s multi-license arm;
`fromStr_total` below proves `2 * |s| + 2` fuel always suffices for
well-formed oracles, so the `none` of fuel exhaustion is unreachable. -/
def fromStrAux (oracle : List Char → Option (List SpdxNode)) :
    Nat → List Char → Option License
  | 0, _ => none
  | fuel + 1, s =>
    match oracle s with
    | some nodes => processSpdxF (simpleLicenseF (fromStrAux oracle fuel)) s nodes
    | none => simpleLicenseF (fromStrAux oracle fuel) s

/-- `<License as FromStr>::from_str` (always `Ok` in the source: the error
type is `Infallible`). -/
def fromStr (oracle : List Char → Option (List SpdxNode)) (s : List Char) :
    Option License :=
  fromStrAux oracle (2 * s.length + 2) s

/-- Well-formedness of the spdx oracle: a rendered license requirement
(`req.req.to_string()`) never contains the separators `/` or ` OR `.
This is a property of the `spdx` crate's `LicenseReq` display format. -/
def WfOracle (oracle : List Char → Option (List SpdxNode)) : Prop :=
  ∀ s nodes, oracle s = some nodes →
    ∀ r ∈ reqStrings nodes, hasSep (trimChars r) = false

/-! ## `src/discovery.rs`: word-frequency license matching -/

/-- The `Confidence` enum from `src/discovery.rs`. -/
inductive Confidence where
  | MultiplePossibleLicenseFiles
  | MissingLicenseFile
  | Confident
  | SemiConfident
  | Unsure
  | NoTemplate
  | UnspecifiedLicenseInPackage
  deriving DecidableEq, Repr

/-- `LicenseText` from `src/discovery.rs` (path and raw text as strings). -/
structure LicenseText where
  path : String
  text : String
  confidence : Confidence
  deriving DecidableEq, Repr

/-- A word-frequency map (`HashMap<String, u32>`), as an association list
with unique keys built by `bump`. -/
abbrev Freq := List (String × Nat)

/-- One step of `add_frequencies`:
`*freq.entry(word).or_insert(0) += 1`. -/
def bump : Freq → String → Freq
  | [], w => [(w, 1)]
  | (k, c) :: rest, w =>
    if k = w then (k, c + 1) :: rest else (k, c) :: bump rest w

/-- `add_frequencies` from `src/discovery.rs`.  The regex `\w+`
tokenization and lowercasing are abstracted: the text is already a list
of (lowercased) words. -/
def addFrequencies (freq : Freq) (words : List String) : Freq :=
  words.foldl bump freq

/-- `calculate_frequency` from `src/discovery.rs`. -/
def calculateFrequency (words : List String) : Freq :=
  addFrequencies [] words

/-- `text_freq.remove(word)`: remove the first entry with the given key,
returning its count (if any) and the remaining map. -/
def removeEntry : Freq → String → Option Nat × Freq
  | [], _ => (none, [])
  | (k, c) :: rest, w =>
    if k = w then (some c, rest)
    else
      let r := removeEntry rest w
      (r.1, (k, c) :: r.2)

/-- `compare` from `src/discovery.rs`: for every template word, the
absolute difference to the text's count (removing the entry from the text
map); afterwards every count still left in the text map is added. -/
def compareFreq : Freq → Freq → Nat
  | textFreq, [] => (textFreq.map (fun kc => kc.2)).sum
  | textFreq, (w, c) :: rest =>
    let r := removeEntry textFreq w
    ((r.1.getD 0 : Int) - (c : Int)).natAbs + compareFreq r.2 rest

/-- First-match lookup in a frequency map (0 when absent); on maps with
unique keys this is the count the `HashMap` stores. -/
def lookupFreq : Freq → String → Nat
  | [], _ => 0
  | (k, c) :: rest, w => if k = w then c else lookupFreq rest w

/-- The keys of a frequency map. -/
def freqKeys (f : Freq) : List String :=
  f.map fun kc => kc.1

/-- The `HashMap` invariant: keys occur at most once. -/
def NodupKeys (f : Freq) : Prop :=
  (freqKeys f).Nodup

/-- The final score thresholds of `check_against_template`.  The source
computes `score = errors as f32 / total as f32` and compares against
`0.10` and `0.15`; this is idealized as the exact division-free
comparisons `errors * 10 < total` and `errors * 20 < total * 3` (for
`total = 0` both are false, matching the `inf`/`NaN` comparisons). -/
def scoreConfidence (errors total : Nat) : Confidence :=
  if errors * 10 < total then .Confident
  else if errors * 20 < total * 3 then .SemiConfident
  else .Unsure

/-- `check_against_template` from `src/discovery.rs`.  `templateOf` is the
`License::template` table (the bundled license files, already tokenized
into words); `text` is the tokenized candidate text.  For `Multiple`, the
member templates are accumulated into one frequency map, with an early
`NoTemplate` if any member lacks a template.  (The source's `template()`
panics when invoked *directly* on `Multiple`; that call site is
unreachable because the `Multiple` case is handled first.) -/
def checkAgainstTemplate (templateOf : License → Option (List String))
    (text : List String) (license : License) : Confidence :=
  let textFreq := calculateFrequency text
  let templateFreq : Option Freq :=
    match license with
    | .Multiple licenses =>
      match optionMapM templateOf licenses with
      | some templates => some (templates.foldl addFrequencies [])
      | none => none
    | _ =>
      match templateOf license with
      | some template => some (calculateFrequency template)
      | none => none
  match templateFreq with
  | none => .NoTemplate
  | some templateFreq =>
    let total := (templateFreq.map (fun kc => kc.2)).sum
    let errors := compareFreq textFreq templateFreq
    scoreConfidence errors total

/-! ## `src/found_license.rs`: choosing the best candidate -/

/-- `BestChoice` from `src/found_license.rs`. -/
inductive BestChoice where
  | Single (t : LicenseText)
  | Multiple (ts : List LicenseText)
  | None
  deriving DecidableEq, Repr

/-- `choose` from `src/found_license.rs`: partition by confidence, then
return the first non-empty tier (one candidate → `Single`, more →
`Multiple`), else `(None, MissingLicenseFile)`. -/
def choose (texts : List LicenseText) : BestChoice × Confidence :=
  let p1 := texts.partition (fun t => t.confidence == .Confident)
  let confident := p1.1
  let p2 := p1.2.partition (fun t => t.confidence == .SemiConfident)
  let semiConfident := p2.1
  let p3 := p2.2.partition (fun t => t.confidence == .Unsure)
  let unsure := p3.1
  let noTemplate := p3.2
  match confident with
  | [single] => (.Single single, .Confident)
  | a :: b :: rest => (.Multiple (a :: b :: rest), .Confident)
  | [] =>
    match semiConfident with
    | [single] => (.Single single, .SemiConfident)
    | a :: b :: rest => (.Multiple (a :: b :: rest), .SemiConfident)
    | [] =>
      match unsure with
      | [single] => (.Single single, .Unsure)
      | a :: b :: rest => (.Multiple (a :: b :: rest), .Unsure)
      | [] =>
        match noTemplate with
        | [single] => (.Single single, .NoTemplate)
        | a :: b :: rest => (.Multiple (a :: b :: rest), .NoTemplate)
        | [] => (.None, .MissingLicenseFile)

/-! ## `src/finalized_license.rs` -/

/-- `LICENSE_NOT_FOUNT_TEXT`. -/
def LICENSE_NOT_FOUNT_TEXT : String := "NOT FOUND"

/-- `LicenseAndText` from `src/finalized_license.rs`. -/
structure LicenseAndText where
  license : String
  text : String
  deriving DecidableEq, Repr

/-- `FinalizedLicense` from `src/finalized_license.rs`. -/
structure FinalizedLicense where
  package_name : String
  package_version : String
  repository : String
  license : String
  licenses : List LicenseAndText
  deriving DecidableEq, Repr

/-- The outer lookup built by `finalized_licenses_lookup`: the `HashMap`
is keyed by `(package_name, package_version)` and later inserts override
earlier ones, so the entry seen is the *last* `FinalizedLicense` with
that key. -/
def lookupPrevPackage (prev : List FinalizedLicense) (name ver : String) :
    Option FinalizedLicense :=
  (prev.filter fun f => f.package_name == name && f.package_version == ver).getLast?

/-- The inner lookup of `finalized_licenses_lookup`: licenses keyed by
their SPDX string, later inserts overriding earlier ones. -/
def lookupPrevLicense (f : FinalizedLicense) (lid : String) :
    Option LicenseAndText :=
  (f.licenses.filter fun l => l.license == lid).getLast?

/-- The stable sort by license key used by
`impl PartialEq for FinalizedLicense` (`sorted_by_key(|l| l.license)`). -/
def sortLicenses (l : List LicenseAndText) : List LicenseAndText :=
  insertionSort (fun a b => decide (a.license ≤ b.license)) l

/-- `impl PartialEq for FinalizedLicense`: name and version must match,
then the two license lists, each sorted by license key, are compared
pairwise by `zip` — i.e. only up to the shorter length; `repository` and
`license` are not compared. -/
def finEq (a b : FinalizedLicense) : Bool :=
  a.package_version == b.package_version &&
  a.package_name == b.package_name &&
  ((sortLicenses a.licenses).zip (sortLicenses b.licenses)).all
    fun p => p.1 == p.2

/-! ## `src/bundle.rs` -/

/-- `Bundle` from `src/bundle.rs`. -/
structure Bundle where
  root_name : String
  third_party_libraries : List FinalizedLicense
  deriving DecidableEq, Repr

/-- `impl PartialEq for Bundle`: equal root names, then the two library
lists compared pairwise by `zip` (only up to the shorter length). -/
def bundleEq (a b : Bundle) : Bool :=
  a.root_name == b.root_name &&
  (a.third_party_libraries.zip b.third_party_libraries).all
    fun p => finEq p.1 p.2

/-- `Bundle::check_subset`: `other` must have the same root name, and
every library of `other` must have a `(name, version)`-matching entry in
`self` (the first such entry, via `find`) that is `finEq`-equal. -/
def checkSubset (self other : Bundle) : Bool :=
  self.root_name == other.root_name &&
  other.third_party_libraries.all fun lic =>
    match self.third_party_libraries.find? (fun selfLic =>
        selfLic.package_name == lic.package_name &&
        selfLic.package_version == lic.package_version) with
    | some selfLic => finEq selfLic lic
    | none => false

/-- The back-fill loop of `BundleBuilder::exec` (lines 86–116) applied to
one `FinalizedLicense`: if *any* of its license texts is the `NOT FOUND`
sentinel and the previous bundle has this `(name, version)`, then *every*
license entry with a previous, non-sentinel text is overwritten with that
previous text. -/
def backfillOne (prev : List FinalizedLicense) (lic : FinalizedLicense) :
    FinalizedLicense :=
  if lic.licenses.any (fun l => l.text == LICENSE_NOT_FOUNT_TEXT) then
    match lookupPrevPackage prev lic.package_name lic.package_version with
    | some prevLic =>
      { lic with
        licenses := lic.licenses.map fun inner =>
          match lookupPrevLicense prevLic inner.license with
          | some previous =>
            if previous.text ≠ LICENSE_NOT_FOUNT_TEXT then
              { inner with text := previous.text }
            else inner
          | none => inner }
    | none => lic
  else lic

/-- The back-fill pass over all finalized licenses. -/
def backfill (prev : List FinalizedLicense)
    (lics : List FinalizedLicense) : List FinalizedLicense :=
  lics.map (backfillOne prev)

/-- `lic.license.contains("AND")` (substring containment). -/
def containsAND (s : String) : Bool :=
  decide ("AND".toList <:+: s.toList)

/-- The preference loop of `BundleBuilder::exec` (lines 119–134) applied
to one `FinalizedLicense`: skip entirely when the license string contains
`"AND"`; otherwise find the first preferred license that matches the
parse of some license entry, retain only the matching entries and rewrite
the license string.  `parse` is `License::from_str` (infallible). -/
def preferStep (parse : String → License) (prefer : List License)
    (lic : FinalizedLicense) : FinalizedLicense :=
  if containsAND lic.license then lic
  else
    match prefer.find? (fun preferred =>
        lic.licenses.any fun l => licBeq (parse l.license) preferred) with
    | some preferred =>
      { lic with
        licenses := lic.licenses.filter
          fun l => licBeq (parse l.license) preferred,
        license := licToString preferred }
    | none => lic

/-- The preference pass over all finalized licenses. -/
def applyPreferences (parse : String → License) (prefer : List License)
    (lics : List FinalizedLicense) : List FinalizedLicense :=
  lics.map (preferStep parse prefer)

/-- Total parse used where the source writes
`License::from_str(..).unwrap()`; the `getD` default is unreachable for
well-formed oracles (`fromStr_total`). -/
def parseLicense (oracle : List Char → Option (List SpdxNode))
    (s : String) : License :=
  (fromStr oracle s.toList).getD (.Custom s)

/-! ## `src/package_loader.rs` -/

/-- `cargo_metadata::DependencyKind` (the variants this crate inspects). -/
inductive DepKind where
  | normal
  | development
  | build
  deriving DecidableEq, Repr

/-- `cargo_metadata::NodeDep`: a resolved dependency edge. -/
structure NodeDep where
  pkg : Nat
  dep_kinds : List DepKind
  deriving DecidableEq, Repr

/-- A node of `cargo_metadata::Resolve`. -/
structure ResolveNode where
  id : Nat
  deps : List NodeDep
  deriving DecidableEq, Repr

/-- `cargo_metadata::Package`, reduced to the fields this crate reads
(`id`, `name`, `version`); the semver version is modelled as a `String`
carrying its total order. -/
structure Pkg where
  id : Nat
  name : String
  version : String
  deriving DecidableEq, Repr

/-- The parts of `cargo_metadata::Metadata` used by `PackageLoader`. -/
structure Metadata where
  packages : List Pkg
  nodes : List ResolveNode
  deriving Repr

/-- `PackagesExt::by_id` (without the error wrapping): first package with
the given id. -/
def findPkg (packages : List Pkg) (id : Nat) : Option Pkg :=
  packages.find? fun p => p.id == id

/-- `ResolveExt::by_id` (without the error wrapping): dependency list of
the first resolve node with the given id. -/
def findNode (nodes : List ResolveNode) (id : Nat) : Option (List NodeDep) :=
  (nodes.find? fun n => n.id == id).map fun n => n.deps

/-- The ids pushed for a node: dependencies with at least one `Normal`
kind (`dep.dep_kinds.iter().any(|info| info.kind == DependencyKind::Normal)`);
empty when the node is missing. -/
def normalSucc (meta : Metadata) (id : Nat) : List Nat :=
  match findNode meta.nodes id with
  | some deps =>
    (deps.filter fun d => d.dep_kinds.any fun k => k == .normal).map
      fun d => d.pkg
  | none => []

/-- Reachability along normal-kind dependency edges from the root
packages — the closure `get_root_dependencies` is meant to compute. -/
inductive Reachable (meta : Metadata) (roots : List Pkg) : Nat → Prop where
  | root {p : Pkg} : p ∈ roots → Reachable meta roots p.id
  | step {i j : Nat} : Reachable meta roots i → j ∈ normalSucc meta i →
      Reachable meta roots j

/-- Both `by_id` lookups succeed for this id. -/
def lookupOk (meta : Metadata) (id : Nat) : Prop :=
  (findPkg meta.packages id).isSome ∧ (findNode meta.nodes id).isSome

/-- Errors of the traversal: `PackageLoaderError::PackageNotFound`, plus
an `outOfFuel` marker for the fuel-indexed recursion (proven unreachable
for the fuel bound used by `getRootDependencies`). -/
inductive BfsError where
  | packageNotFound (id : Nat)
  | outOfFuel
  deriving DecidableEq, Repr

/-- The `while let Some(id) = to_check.pop_back()` loop of
`get_root_dependencies`, fuel-indexed.  The `VecDeque` is represented
with its *back* at the head of `queue` (`pop_back` pops the head,
`push_back` conses); `added` is the `HashSet` of visited ids; `result`
accumulates packages in visit order. -/
def bfsAux (meta : Metadata) :
    Nat → List Nat → List Nat → List Pkg → Except BfsError (List Pkg)
  | _, [], _, result => .ok result
  | 0, _ :: _, _, _ => .error .outOfFuel
  | fuel + 1, id :: rest, added, result =>
    if id ∈ added then bfsAux meta fuel rest added result
    else
      match findPkg meta.packages id with
      | none => .error (.packageNotFound id)
      | some p =>
        match findNode meta.nodes id with
        | none => .error (.packageNotFound id)
        | some deps =>
          bfsAux meta fuel
            (((deps.filter fun d => d.dep_kinds.any fun k => k == .normal).map
                fun d => d.pkg).reverse ++ rest)
            (id :: added) (result ++ [p])

/-- Total number of resolved dependency edges; bounds how many ids one
loop step can push. -/
def totalDeps (meta : Metadata) : Nat :=
  (meta.nodes.map fun n => n.deps.length).sum

/-- Fuel bound that always suffices (`bfs_main` below). -/
def bfsBound (meta : Metadata) (roots : List Pkg) : Nat :=
  (totalDeps meta + 1) * meta.packages.length + roots.length

/-- `PackageLoader::get_root_dependencies`: breadth of the loop above
started on the roots' ids (front of the `VecDeque` = end of our list). -/
def getRootDependencies (meta : Metadata) (roots : List Pkg) :
    Except BfsError (List Pkg) :=
  bfsAux meta (bfsBound meta roots) (roots.map fun p => p.id).reverse [] []

/-- The decreasing measure of the loop: ids never visited weighted by the
maximal pushes per step, plus the queue length. -/
def bfsMeasure (meta : Metadata) (queue added : List Nat) : Nat :=
  (totalDeps meta + 1) *
    ((meta.packages.map fun p => p.id).filter fun i => ¬ i ∈ added).length +
  queue.length

/-- The loop invariant of `get_root_dependencies`: queued and visited ids
are reachable, visited ids were looked up successfully, the visited set
is closed up to the queue, every root is visited or queued, no id is
visited twice, and the result lists exactly the visited packages in
visit order. -/
def BfsInv (meta : Metadata) (roots : List Pkg)
    (queue added : List Nat) (result : List Pkg) : Prop :=
  (∀ id ∈ queue, Reachable meta roots id) ∧
  (∀ id ∈ added, Reachable meta roots id) ∧
  (∀ id ∈ added, lookupOk meta id) ∧
  (∀ id ∈ added, ∀ d ∈ normalSucc meta id, d ∈ added ∨ d ∈ queue) ∧
  (∀ r ∈ roots, r.id ∈ added ∨ r.id ∈ queue) ∧
  added.Nodup ∧
  added = (result.map fun p => p.id).reverse ∧
  (∀ p ∈ result, findPkg meta.packages p.id = some p)

/-- What `get_root_dependencies` guarantees about an `ok` result: its ids
are exactly the ids reachable over normal edges, without duplicates, each
entry is its id's (first) package, and each visited id was looked up
successfully. -/
def BfsGood (meta : Metadata) (roots : List Pkg) (out : List Pkg) : Prop :=
  (∀ pid, pid ∈ out.map (fun p => p.id) ↔ Reachable meta roots pid) ∧
  (out.map fun p => p.id).Nodup ∧
  (∀ p ∈ out, findPkg meta.packages p.id = some p) ∧
  (∀ pid ∈ out.map (fun p => p.id), lookupOk meta pid)

/-- The `(name, version)` lexicographic order used by
`packages.sort_by_key(|p| (&p.name, &p.version))`. -/
def pkgKeyLe (a b : Pkg) : Bool :=
  decide (a.name < b.name) || (a.name == b.name && decide (a.version ≤ b.version))

/-- Lines 60–68 of `BundleBuilder::exec`: the dependency closure of the
roots, minus every package whose *name* equals some root's name, sorted
by `(name, version)`. -/
def execPackages (meta : Metadata) (roots : List Pkg) :
    Except BfsError (List Pkg) :=
  (getRootDependencies meta roots).map fun deps =>
    insertionSort pkgKeyLe
      (deps.filter fun p => !(roots.any fun r => r.name == p.name))

/-! ## Spec-side definitions (used only to state claims) -/

/-- Spec reading for C5: the member list of a `Multiple` is sorted by the
`License` type's derived total order. -/
def SortedByDerivedOrd (ls : List License) : Prop :=
  List.Pairwise (fun a b => licCmp a b ≠ .gt) ls

/-- Spec reading for C2: field-for-field equality of two
`FinalizedLicense`s, sub-license lists compared as sets
(order-independent membership). -/
def specFinalizedEq (a b : FinalizedLicense) : Prop :=
  a.package_name = b.package_name ∧
  a.package_version = b.package_version ∧
  a.repository = b.repository ∧
  a.license = b.license ∧
  (∀ x, x ∈ a.licenses ↔ x ∈ b.licenses)

/-- Spec reading for C7: the error total — for each distinct template
word the absolute difference between template count and text count, plus
the full count of every text word absent from the template. -/
def errSpec (templateWords text : List String) : Nat :=
  (∑ w ∈ templateWords.toFinset,
    ((text.count w : Int) - (templateWords.count w : Int)).natAbs) +
  (∑ w ∈ text.toFinset \ templateWords.toFinset, text.count w)

/-! ## Helper lemmas: insertion sort -/

theorem insertLe_perm {α : Type} (le : α → α → Bool) (x : α) :
    ∀ l : List α, (insertLe le x l).Perm (x :: l)
  | [] => List.Perm.refl _
  | y :: ys => by
    unfold insertLe
    by_cases h : le x y = true
    · simp [h]
    · simp only [h, if_neg, Bool.false_eq_true, not_false_eq_true, if_false]
      exact ((insertLe_perm le x ys).cons y).trans (List.Perm.swap x y ys)

theorem insertionSort_perm {α : Type} (le : α → α → Bool) :
    ∀ l : List α, (insertionSort le l).Perm l
  | [] => List.Perm.refl _
  | x :: xs =>
    (insertLe_perm le x (insertionSort le xs)).trans
      ((insertionSort_perm le xs).cons x)

theorem mem_insertionSort {α : Type} (le : α → α → Bool) {l : List α} {a : α} :
    a ∈ insertionSort le l ↔ a ∈ l :=
  (insertionSort_perm le l).mem_iff

theorem insertLe_pairwise {α : Type} (le : α → α → Bool)
    (htrans : ∀ a b c, le a b = true → le b c = true → le a c = true)
    (htotal : ∀ a b, le a b = true ∨ le b a = true) (x : α) :
    ∀ l : List α, l.Pairwise (fun a b => le a b = true) →
      (insertLe le x l).Pairwise (fun a b => le a b = true)
  | [], _ => List.pairwise_singleton _ _
  | y :: ys, h => by
    rcases List.pairwise_cons.mp h with ⟨hy, hys⟩
    unfold insertLe
    by_cases hxy : le x y = true
    · simp only [hxy, if_true]
      refine List.pairwise_cons.mpr ⟨?_, h⟩
      intro z hz
      rcases List.mem_cons.mp hz with rfl | hz
      · exact hxy
      · exact htrans x y z hxy (hy z hz)
    · simp only [hxy, Bool.false_eq_true, if_false]
      refine List.pairwise_cons.mpr ⟨?_, insertLe_pairwise le htrans htotal x ys hys⟩
      intro z hz
      rcases List.mem_cons.mp ((insertLe_perm le x ys).mem_iff.mp hz) with hzx | hz
      · rw [hzx]
        rcases htotal x y with hc | hc
        · exact absurd hc hxy
        · exact hc
      · exact hy z hz

theorem insertionSort_pairwise {α : Type} (le : α → α → Bool)
    (htrans : ∀ a b c, le a b = true → le b c = true → le a c = true)
    (htotal : ∀ a b, le a b = true ∨ le b a = true) :
    ∀ l : List α, (insertionSort le l).Pairwise (fun a b => le a b = true)
  | [] => List.Pairwise.nil
  | x :: xs =>
    insertLe_pairwise le htrans htotal x _ (insertionSort_pairwise le htrans htotal xs)

/-! ## Helper lemmas: structural equality of `License` -/

mutual

theorem licBeq_refl : ∀ x : License, licBeq x x = true
  | .Unlicense => rfl
  | .BSD_0_Clause => rfl
  | .CC0_1_0 => rfl
  | .MIT => rfl
  | .X11 => rfl
  | .BSD_2_Clause => rfl
  | .BSD_3_Clause => rfl
  | .BSL_1_0 => rfl
  | .Apache_2_0 => rfl
  | .Apache_2_0_WITH_LLVM_exception => rfl
  | .LGPL_2_0 => rfl
  | .LGPL_2_1 => rfl
  | .LGPL_2_1Plus => rfl
  | .LGPL_3_0 => rfl
  | .LGPL_3_0Plus => rfl
  | .MPL_1_1 => rfl
  | .MPL_2_0 => rfl
  | .GPL_2_0 => rfl
  | .GPL_2_0Plus => rfl
  | .GPL_3_0 => rfl
  | .GPL_3_0Plus => rfl
  | .AGPL_3_0 => rfl
  | .AGPL_3_0Plus => rfl
  | .Zlib => rfl
  | .Custom s => beq_self_eq_true s
  | .File p => beq_self_eq_true p
  | .Multiple ls => licListBeq_refl ls
  | .Unspecified => rfl

theorem licListBeq_refl : ∀ l : List License, licListBeq l l = true
  | [] => rfl
  | x :: xs =>
    show (licBeq x x && licListBeq xs xs) = true by
      rw [licBeq_refl x, licListBeq_refl xs]
      rfl

end

/-! ## Helper lemmas: first-seen deduplication -/

theorem dedupFirstAux_sublist (seen : List License) :
    ∀ l : List License, (dedupFirstAux seen l).Sublist l
  | [] => List.Sublist.refl _
  | x :: xs => by
    unfold dedupFirstAux
    by_cases h : seen.any (fun y => licBeq y x) = true
    · simp only [h, if_true]
      exact (dedupFirstAux_sublist seen xs).cons x
    · simp only [h, Bool.false_eq_true, if_false]
      exact (dedupFirstAux_sublist (x :: seen) xs).cons₂ x

theorem dedupFirstAux_complete (a : License) :
    ∀ (seen l : List License), a ∈ l →
      (∃ b ∈ seen, licBeq b a = true) ∨
      (∃ b ∈ dedupFirstAux seen l, licBeq b a = true) := by
  intro seen l
  induction l generalizing seen with
  | nil => intro h; cases h
  | cons x xs ih =>
    intro ha
    unfold dedupFirstAux
    by_cases hseen : seen.any (fun y => licBeq y x) = true
    · simp only [hseen, if_true]
      rcases List.mem_cons.mp ha with hax | ha
      · rcases List.any_eq_true.mp hseen with ⟨b, hb, hba⟩
        exact .inl ⟨b, hb, by rw [hax]; exact hba⟩
      · exact ih seen ha
    · simp only [hseen, Bool.false_eq_true, if_false]
      rcases List.mem_cons.mp ha with hax | ha
      · exact .inr ⟨x, List.mem_cons_self x _,
          by rw [hax]; exact licBeq_refl x⟩
      · rcases ih (x :: seen) ha with ⟨b, hb, hba⟩ | ⟨b, hb, hba⟩
        · rcases List.mem_cons.mp hb with hbx | hb
          · exact .inr ⟨x, List.mem_cons_self x _, by rw [← hbx]; exact hba⟩
          · exact .inl ⟨b, hb, hba⟩
        · exact .inr ⟨b, List.mem_cons_of_mem x hb, hba⟩

theorem dedupFirstAux_pairwise :
    ∀ (seen l : List License),
      (dedupFirstAux seen l).Pairwise (fun a b => licBeq a b = false) ∧
      (∀ b ∈ dedupFirstAux seen l, ∀ s ∈ seen, licBeq s b = false) := by
  intro seen l
  induction l generalizing seen with
  | nil => exact ⟨List.Pairwise.nil, by intro b hb; cases hb⟩
  | cons x xs ih =>
    unfold dedupFirstAux
    by_cases hseen : seen.any (fun y => licBeq y x) = true
    · simp only [hseen, if_true]
      exact ih seen
    · simp only [hseen, Bool.false_eq_true, if_false]
      have hnot : ∀ y ∈ seen, licBeq y x = false := by
        intro y hy
        rcases Bool.eq_false_or_eq_true (licBeq y x) with h | h
        · exact absurd (List.any_eq_true.mpr ⟨y, hy, h⟩) hseen
        · exact h
      rcases ih (x :: seen) with ⟨hpw, hsn⟩
      constructor
      · refine List.pairwise_cons.mpr ⟨?_, hpw⟩
        intro b hb
        exact hsn b hb x (List.mem_cons_self x _)
      · intro b hb s hs
        rcases List.mem_cons.mp hb with hbx | hb
        · rw [hbx]
          exact hnot s hs
        · exact hsn b hb s (List.mem_cons_of_mem x hs)

theorem dedupFirst_sublist (l : List License) : (dedupFirst l).Sublist l :=
  dedupFirstAux_sublist [] l

theorem dedupFirst_complete {a : License} {l : List License} (h : a ∈ l) :
    ∃ b ∈ dedupFirst l, licBeq b a = true := by
  rcases dedupFirstAux_complete a [] l h with ⟨b, hb, _⟩ | hb
  · cases hb
  · exact hb

theorem dedupFirst_pairwise (l : List License) :
    (dedupFirst l).Pairwise (fun a b => licBeq a b = false) :=
  (dedupFirstAux_pairwise [] l).1

/-! ## Helper lemmas: splitting and parser totality -/

theorem splitSlash_cons (c : Char) (cs : List Char) :
    splitSlash (c :: cs) =
      match splitSlash cs with
      | [] => [[]]
      | p :: ps => if c = '/' then [] :: p :: ps else (c :: p) :: ps := rfl

theorem mem_splitSlash_length :
    ∀ (l p : List Char), p ∈ splitSlash l → p.length ≤ l.length := by
  intro l
  induction l with
  | nil =>
    intro p hp
    simp only [splitSlash, List.mem_singleton] at hp
    simp [hp]
  | cons c cs ih =>
    intro p hp
    rw [splitSlash_cons] at hp
    cases hsp : splitSlash cs with
    | nil =>
      rw [hsp] at hp
      simp only [List.mem_singleton] at hp
      simp [hp]
    | cons q qs =>
      rw [hsp] at hp
      by_cases hc : c = '/'
      · simp only [hc, if_true] at hp
        rcases List.mem_cons.mp hp with hpe | hp
        · simp [hpe]
        · have : p.length ≤ cs.length := ih p (hsp ▸ hp)
          simp only [List.length_cons]
          omega
      · simp only [hc, if_false] at hp
        rcases List.mem_cons.mp hp with hpe | hp
        · have : q.length ≤ cs.length := ih q (hsp ▸ List.mem_cons_self q qs)
          simp only [hpe, List.length_cons]
          omega
        · have : p.length ≤ cs.length := ih p (hsp ▸ List.mem_cons_of_mem q hp)
          simp only [List.length_cons]
          omega

theorem splitSlash_no_slash :
    ∀ {l : List Char}, ¬ '/' ∈ l → splitSlash l = [l] := by
  intro l
  induction l with
  | nil => intro; rfl
  | cons c cs ih =>
    intro h
    have hc : c ≠ '/' := fun he => h (he ▸ List.mem_cons_self c cs)
    have hcs : ¬ '/' ∈ cs := fun hm => h (List.mem_cons_of_mem c hm)
    rw [splitSlash_cons, ih hcs]
    simp [hc]

theorem mem_splitSlash_length_lt :
    ∀ (l p : List Char), '/' ∈ l → p ∈ splitSlash l → p.length < l.length := by
  intro l
  induction l with
  | nil => intro p h; exact absurd h (List.not_mem_nil '/')
  | cons c cs ih =>
    intro p hin hp
    rw [splitSlash_cons] at hp
    cases hsp : splitSlash cs with
    | nil =>
      rw [hsp] at hp
      simp only [List.mem_singleton] at hp
      simp [hp]
    | cons q qs =>
      rw [hsp] at hp
      by_cases hc : c = '/'
      · simp only [hc, if_true] at hp
        rcases List.mem_cons.mp hp with hpe | hp
        · simp [hpe]
        · have : p.length ≤ cs.length := mem_splitSlash_length cs p (hsp ▸ hp)
          simp only [List.length_cons]
          omega
      · simp only [hc, if_false] at hp
        have hincs : '/' ∈ cs := by
          rcases List.mem_cons.mp hin with he | h
          · exact absurd he.symm hc
          · exact h
        rcases List.mem_cons.mp hp with hpe | hp
        · have : q.length < cs.length :=
            ih q hincs (hsp ▸ List.mem_cons_self q qs)
          simp only [hpe, List.length_cons]
          omega
        · have : p.length < cs.length :=
            ih p hincs (hsp ▸ List.mem_cons_of_mem q hp)
          simp only [List.length_cons]
          omega

theorem or_sep_prefix {l : List Char}
    (h : (' ' :: 'O' :: 'R' :: ' ' :: []) <+: l) :
    ∃ rest, l = ' ' :: 'O' :: 'R' :: ' ' :: rest := by
  rcases h with ⟨t, ht⟩
  exact ⟨t, ht.symm⟩

theorem splitOR_cons_sep (rest : List Char) :
    splitOR (' ' :: 'O' :: 'R' :: ' ' :: rest) = [] :: splitOR rest := rfl

theorem splitOR_cons (c : Char) (cs : List Char)
    (hne : ∀ rest, c = ' ' → cs = 'O' :: 'R' :: ' ' :: rest → False) :
    splitOR (c :: cs) =
      match splitOR cs with
      | [] => [[]]
      | p :: ps => (c :: p) :: ps := by
  conv_lhs => unfold splitOR
  split
  · rename_i rest heq
    injection heq with h1 h2
    exact (hne rest h1 h2).elim
  · rename_i c' cs' hx heq
    injection heq with h1 h2
    rw [h1, h2]
  · rename_i heq
    cases heq

theorem mem_splitOR_length :
    ∀ (l p : List Char), p ∈ splitOR l → p.length ≤ l.length := by
  intro l
  induction l using splitOR.induct with
  | case1 rest ih =>
    intro p hp
    rw [splitOR_cons_sep] at hp
    rcases List.mem_cons.mp hp with hpe | hp
    · simp [hpe]
    · have := ih p hp
      simp only [List.length_cons]
      omega
  | case2 c cs hne hnil ih =>
    intro p hp
    rw [splitOR_cons c cs hne, hnil] at hp
    simp only [List.mem_singleton] at hp
    simp [hp]
  | case3 c cs hne q qs hq ih =>
    intro p hp
    rw [splitOR_cons c cs hne, hq] at hp
    rcases List.mem_cons.mp hp with hpe | hp
    · have : q.length ≤ cs.length := ih q (hq ▸ List.mem_cons_self q qs)
      simp only [hpe, List.length_cons]
      omega
    · have : p.length ≤ cs.length := ih p (hq ▸ List.mem_cons_of_mem q hp)
      simp only [List.length_cons]
      omega
  | case4 =>
    intro p hp
    simp only [splitOR, List.mem_singleton] at hp
    simp [hp]

theorem mem_splitOR_length_lt :
    ∀ (l p : List Char), (' ' :: 'O' :: 'R' :: ' ' :: []) <:+: l →
      p ∈ splitOR l → p.length < l.length := by
  intro l
  induction l using splitOR.induct with
  | case1 rest ih =>
    intro p hin hp
    rw [splitOR_cons_sep] at hp
    rcases List.mem_cons.mp hp with hpe | hp
    · simp [hpe]
    · have := mem_splitOR_length rest p hp
      simp only [List.length_cons]
      omega
  | case2 c cs hne hnil ih =>
    intro p hin hp
    rcases List.infix_cons_iff.mp hin with hpre | hinf
    · rcases or_sep_prefix hpre with ⟨rest, hrest⟩
      injection hrest with h1 h2
      exact (hne rest h1 h2).elim
    · rw [splitOR_cons c cs hne, hnil] at hp
      simp only [List.mem_singleton] at hp
      have h1 : 4 ≤ cs.length := by
        have := hinf.length_le
        simpa using this
      simp only [hp, List.length_nil, List.length_cons]
      omega
  | case3 c cs hne q qs hq ih =>
    intro p hin hp
    rcases List.infix_cons_iff.mp hin with hpre | hinf
    · rcases or_sep_prefix hpre with ⟨rest, hrest⟩
      injection hrest with h1 h2
      exact (hne rest h1 h2).elim
    · rw [splitOR_cons c cs hne, hq] at hp
      rcases List.mem_cons.mp hp with hpe | hp
      · have : q.length < cs.length :=
          ih q hinf (hq ▸ List.mem_cons_self q qs)
        simp only [hpe, List.length_cons]
        omega
      · have : p.length < cs.length :=
          ih p hinf (hq ▸ List.mem_cons_of_mem q hp)
        simp only [List.length_cons]
        omega
  | case4 =>
    intro p hin
    have := hin.length_le
    simp at this

theorem trimChars_length (l : List Char) : (trimChars l).length ≤ l.length := by
  unfold trimChars
  have h1 : (l.dropWhile Char.isWhitespace).length ≤ l.length :=
    (List.dropWhile_sublist _).length_le
  have h2 : ((l.dropWhile Char.isWhitespace).reverse.dropWhile
      Char.isWhitespace).length ≤ (l.dropWhile Char.isWhitespace).reverse.length :=
    (List.dropWhile_sublist _).length_le
  simp only [List.length_reverse] at h2 ⊢
  omega

theorem mem_parts_length_lt {t p : List Char} (hsep : hasSep t = true)
    (hp : p ∈ (splitSlash t).flatMap splitOR) : p.length < t.length := by
  rcases List.mem_flatMap.mp hp with ⟨q, hq, hpq⟩
  by_cases hs : '/' ∈ t
  · have h1 : q.length < t.length := mem_splitSlash_length_lt t q hs hq
    have h2 : p.length ≤ q.length := mem_splitOR_length q p hpq
    omega
  · have hinf : (' ' :: 'O' :: 'R' :: ' ' :: []) <:+: t := by
      unfold hasSep at hsep
      rcases Bool.or_eq_true_iff.mp hsep with h | h
      · exact absurd (of_decide_eq_true h) hs
      · exact of_decide_eq_true h
    rw [splitSlash_no_slash hs] at hq
    simp only [List.mem_singleton] at hq
    exact mem_splitOR_length_lt t p hinf (hq ▸ hpq)

theorem simpleLicenseF_isSome_nosep (f : List Char → Option License)
    (s : List Char) (h : hasSep (trimChars s) = false) :
    (simpleLicenseF f s).isSome = true := by
  unfold simpleLicenseF
  cases hk : knownLicense (trimChars s) with
  | some l => simp [hk]
  | none => simp [hk, h]

theorem optionMapM_isSome {α β : Type} (f : α → Option β) :
    ∀ l : List α, (∀ a ∈ l, (f a).isSome = true) →
      (optionMapM f l).isSome = true := by
  intro l
  induction l with
  | nil => intro; rfl
  | cons a as ih =>
    intro h
    rcases Option.isSome_iff_exists.mp (h a (List.mem_cons_self a as)) with ⟨b, hb⟩
    rcases Option.isSome_iff_exists.mp
      (ih fun x hx => h x (List.mem_cons_of_mem a hx)) with ⟨bs, hbs⟩
    simp [optionMapM, hb, hbs]

theorem fromStrAux_isSome (oracle : List Char → Option (List SpdxNode))
    (hwf : WfOracle oracle) :
    ∀ (fuel : Nat) (s : List Char), 2 * s.length + 1 ≤ fuel →
      (fromStrAux oracle fuel s).isSome = true := by
  intro fuel
  induction fuel with
  | zero => intro s h; omega
  | succ fuel ih =>
    intro s hs
    have hSL : ∀ t : List Char, 2 * t.length ≤ fuel →
        (simpleLicenseF (fromStrAux oracle fuel) t).isSome = true := by
      intro t ht
      unfold simpleLicenseF
      cases hk : knownLicense (trimChars t) with
      | some l => simp [hk]
      | none =>
        by_cases hsep : hasSep (trimChars t) = true
        · simp only [hk, hsep, if_true]
          have hparts : (optionMapM (fromStrAux oracle fuel)
              ((splitSlash (trimChars t)).flatMap splitOR)).isSome = true := by
            apply optionMapM_isSome
            intro p hp
            have h1 : p.length < (trimChars t).length :=
              mem_parts_length_lt hsep hp
            have h2 : (trimChars t).length ≤ t.length := trimChars_length t
            exact ih p (by omega)
          rcases Option.isSome_iff_exists.mp hparts with ⟨ls, hls⟩
          simp [hls]
        · simp [hk, Bool.eq_false_iff.mpr hsep]
    cases horacle : oracle s with
    | none =>
      show (fromStrAux oracle (fuel + 1) s).isSome = true
      unfold fromStrAux
      rw [horacle]
      exact hSL s (by omega)
    | some nodes =>
      show (fromStrAux oracle (fuel + 1) s).isSome = true
      have hreqs : (optionMapM (simpleLicenseF (fromStrAux oracle fuel))
          (reqStrings nodes)).isSome = true := by
        apply optionMapM_isSome
        intro r hr
        exact simpleLicenseF_isSome_nosep _ r (hwf s nodes horacle r hr)
      rcases Option.isSome_iff_exists.mp hreqs with ⟨col, hcol⟩
      have hstep : fromStrAux oracle (fuel + 1) s
          = processSpdxF (simpleLicenseF (fromStrAux oracle fuel)) s nodes := by
        unfold fromStrAux
        rw [horacle]
      have hstep2 : processSpdxF (simpleLicenseF (fromStrAux oracle fuel)) s nodes
          = match dedupFirst col with
            | [single] => some single
            | x :: y :: rest => some (.Multiple (x :: y :: rest))
            | [] => simpleLicenseF (fromStrAux oracle fuel) s := by
        unfold processSpdxF
        rw [hcol]
      rw [hstep, hstep2]
      cases hded : dedupFirst col with
      | nil => exact hSL s (by omega)
      | cons x rest =>
        cases rest with
        | nil => rfl
        | cons y rest2 => rfl

/-! ## Claim C4: license parsing is total -/

/-- **C4** (amended): for every input string and every well-formed spdx
oracle, parsing succeeds (the bounded recursion always produces a value —
in particular `simple_license`'s split recursion terminates and the inner
`unwrap`s cannot panic), and input matching no known license form — spdx
parse fails, no table entry, no `/` or ` OR ` separator — degrades to
`Custom` of the *trimmed* input (the source matches on `s.trim()` and
catches the trimmed string). -/
theorem c4_parse_total_custom_fallback
    (oracle : List Char → Option (List SpdxNode)) (hwf : WfOracle oracle)
    (s : List Char) :
    (fromStr oracle s).isSome = true ∧
    (oracle s = none → knownLicense (trimChars s) = none →
      hasSep (trimChars s) = false →
      fromStr oracle s = some (.Custom (String.mk (trimChars s)))) := by
  constructor
  · exact fromStrAux_isSome oracle hwf _ s (by omega)
  · intro h1 h2 h3
    have he : 2 * s.length + 2 = 2 * s.length + 1 + 1 := by omega
    have hstep : fromStr oracle s
        = simpleLicenseF (fromStrAux oracle (2 * s.length + 1)) s := by
      unfold fromStr
      rw [he]
      unfold fromStrAux
      rw [h1]
    rw [hstep]
    simp [simpleLicenseF, h2, h3]

/-- **C4** witness: the amended theorem applied at the constant-failure
oracle and the unrecognized input `" my license "`. -/
theorem c4_witness :
    (fromStr (fun _ => none) " my license ".toList).isSome = true ∧
    ((fun (_ : List Char) => (none : Option (List SpdxNode)))
        " my license ".toList = none →
      knownLicense (trimChars " my license ".toList) = none →
      hasSep (trimChars " my license ".toList) = false →
      fromStr (fun _ => none) " my license ".toList
        = some (.Custom (String.mk (trimChars " my license ".toList)))) :=
  c4_parse_total_custom_fallback (fun _ => none)
    (fun _ _ h => nomatch h) " my license ".toList

/-- **C4** counterexample to the claim as stated: the unrecognized input
`" my license "` parses to `Custom "my license"` (trimmed), not
`Custom " my license "` (the original string). -/
theorem c4_counterexample :
    fromStr (fun _ => none) " my license ".toList
      = some (.Custom "my license") ∧
    License.Custom "my license" ≠ License.Custom " my license " := by
  constructor
  · rfl
  · intro h
    injection h with h'
    exact absurd h' (by decide)

/-! ## Claim C5: flattening of SPDX expressions -/

/-- **C5** (amended): when the lenient SPDX parse succeeds and the
collected leaves deduplicate to two or more licenses,
`process_spdx_expression` returns `Multiple` of exactly the deduplicated
collection: a sublist of the collected leaves (so first-seen order is
preserved, with *no* sorting), every collected leaf equal to a retained
one, no two retained members equal, and the result depending only on the
requirement nodes (`AND` and `OR` operators are ignored alike). -/
theorem c5_process_spdx_flatten_dedup
    (simple : List Char → Option License) (s : List Char)
    (nodes : List SpdxNode) (col : List License)
    (hcol : optionMapM simple (reqStrings nodes) = some col)
    (x y : License) (rest : List License)
    (hded : dedupFirst col = x :: y :: rest) :
    processSpdxF simple s nodes = some (.Multiple (x :: y :: rest)) ∧
    (dedupFirst col).Sublist col ∧
    (∀ a ∈ col, ∃ b ∈ dedupFirst col, licBeq b a = true) ∧
    (dedupFirst col).Pairwise (fun a b => licBeq a b = false) ∧
    (∀ nodes₂, reqStrings nodes₂ = reqStrings nodes →
      processSpdxF simple s nodes₂ = processSpdxF simple s nodes) := by
  refine ⟨?_, dedupFirst_sublist col, fun a ha => dedupFirst_complete ha,
    dedupFirst_pairwise col, ?_⟩
  · unfold processSpdxF
    rw [hcol]
    show (match dedupFirst col with
      | [single] => some single
      | x :: y :: rest => some (License.Multiple (x :: y :: rest))
      | [] => simple s) = some (.Multiple (x :: y :: rest))
    rw [hded]
  · intro nodes₂ h2
    unfold processSpdxF
    rw [h2]

/-- **C5** witness: the amended theorem applied at requirement nodes
`Apache-2.0 AND MIT AND Apache-2.0`: the duplicate leaf is dropped and
the result is `Multiple [Apache-2.0, MIT]` in first-seen order. -/
theorem c5_witness :
    processSpdxF (simpleLicenseF fun _ => none) []
        [.Req "Apache-2.0".toList, .Op true, .Req "MIT".toList,
          .Req "Apache-2.0".toList]
      = some (.Multiple [.Apache_2_0, .MIT]) :=
  (c5_process_spdx_flatten_dedup (simpleLicenseF fun _ => none) []
    [.Req "Apache-2.0".toList, .Op true, .Req "MIT".toList,
      .Req "Apache-2.0".toList]
    [.Apache_2_0, .MIT, .Apache_2_0] rfl .Apache_2_0 .MIT [] rfl).1

/-- **C5** counterexample to the claim as stated: parsing
`"Apache-2.0 OR MIT"` (spdx parse succeeding with leaves in that order)
yields `Multiple [Apache-2.0, MIT]`, which is *not* sorted by the derived
total order (`MIT` precedes `Apache-2.0` in declaration order). -/
theorem c5_counterexample :
    fromStr
        (fun s => if s = "Apache-2.0 OR MIT".toList then
          some [.Req "Apache-2.0".toList, .Req "MIT".toList, .Op false]
          else none)
        "Apache-2.0 OR MIT".toList
      = some (.Multiple [.Apache_2_0, .MIT]) ∧
    ¬ SortedByDerivedOrd [License.Apache_2_0, License.MIT] := by
  constructor
  · rfl
  · intro h
    exact (List.pairwise_cons.mp h).1 .MIT (List.mem_cons_self _ _) rfl

/-! ## Helper lemmas: pairwise `zip` equality -/

theorem zip_append_self_all {α : Type} (f : α → α → Bool)
    (hrefl : ∀ x, f x x = true) :
    ∀ (l e : List α), ((l.zip (l ++ e)).all fun p => f p.1 p.2) = true := by
  intro l e
  induction l with
  | nil => rfl
  | cons x xs ih =>
    simp only [List.cons_append, List.zip_cons_cons, List.all_cons, hrefl x,
      Bool.true_and]
    exact ih

theorem zip_self_all {α : Type} (f : α → α → Bool)
    (hrefl : ∀ x, f x x = true) (l : List α) :
    ((l.zip l).all fun p => f p.1 p.2) = true := by
  have := zip_append_self_all f hrefl l []
  simpa using this

theorem finEq_refl (a : FinalizedLicense) : finEq a a = true := by
  unfold finEq
  rw [beq_self_eq_true, beq_self_eq_true,
    zip_self_all _ (fun x => beq_self_eq_true x)]
  rfl

/-! ## Claim C10: prefix-only list comparison in the equality impls -/

/-- **C10**: `Bundle` and `FinalizedLicense` equality `zip` their inner
lists and so compare only up to the shorter length: a bundle whose
library list extends another's (same root) still compares equal, and a
`FinalizedLicense` whose sorted sub-license list extends another's (same
name and version) still compares equal. -/
theorem c10_eq_prefix_quirk :
    (∀ (b₁ b₂ : Bundle) (ext : List FinalizedLicense),
      b₁.root_name = b₂.root_name →
      b₂.third_party_libraries = b₁.third_party_libraries ++ ext →
      bundleEq b₁ b₂ = true) ∧
    (∀ (a b : FinalizedLicense) (ext : List LicenseAndText),
      a.package_name = b.package_name →
      a.package_version = b.package_version →
      sortLicenses b.licenses = sortLicenses a.licenses ++ ext →
      finEq a b = true) := by
  constructor
  · intro b₁ b₂ ext hroot hlibs
    unfold bundleEq
    rw [hroot, beq_self_eq_true, hlibs,
      zip_append_self_all finEq finEq_refl]
    rfl
  · intro a b ext hname hver hlics
    unfold finEq
    rw [hname, hver, beq_self_eq_true, beq_self_eq_true, hlics,
      zip_append_self_all _ (fun x => beq_self_eq_true x)]
    rfl

/-- **C10** witness: a bundle with one library compares equal to the same
bundle extended by a second library, and a `FinalizedLicense` with one
sub-license compares equal to one with an extra sub-license. -/
theorem c10_witness :
    bundleEq
      { root_name := "root",
        third_party_libraries := [{ package_name := "a", package_version := "1",
                                    repository := "r", license := "MIT",
                                    licenses := [{ license := "MIT", text := "t" }] }] }
      { root_name := "root",
        third_party_libraries := [{ package_name := "a", package_version := "1",
                                    repository := "r", license := "MIT",
                                    licenses := [{ license := "MIT", text := "t" }] },
                                  { package_name := "b", package_version := "2",
                                    repository := "r2", license := "X11",
                                    licenses := [] }] } = true ∧
    finEq
      { package_name := "a", package_version := "1", repository := "r",
        license := "MIT", licenses := [] }
      { package_name := "a", package_version := "1", repository := "zzz",
        license := "other", licenses := [{ license := "B", text := "tb" }] } = true :=
  ⟨c10_eq_prefix_quirk.1 _ _ [{ package_name := "b", package_version := "2",
                                repository := "r2", license := "X11",
                                licenses := [] }] rfl rfl,
   c10_eq_prefix_quirk.2 _ _ [{ license := "B", text := "tb" }] rfl rfl rfl⟩

/-! ## Claim C2: the subset check -/

/-- **C2** (amended): `check_subset` succeeds iff the root names agree
and every library of the prior bundle has a first `(name, version)`-match
in the candidate that is equal under the *implemented* equivalence
`finEq` (which ignores `repository` and `license` and compares the sorted
sub-license lists only up to the shorter length) — not field-for-field
equality. -/
theorem c2_check_subset_characterization (c p : Bundle) :
    checkSubset c p = true ↔
      (c.root_name = p.root_name ∧
        ∀ lic ∈ p.third_party_libraries,
          ∃ sl, c.third_party_libraries.find? (fun selfLic =>
              selfLic.package_name == lic.package_name &&
              selfLic.package_version == lic.package_version) = some sl ∧
            finEq sl lic = true) := by
  unfold checkSubset
  rw [Bool.and_eq_true, List.all_eq_true, beq_iff_eq]
  constructor
  · rintro ⟨hroot, hall⟩
    refine ⟨hroot, fun lic hlic => ?_⟩
    have h := hall lic hlic
    cases hf : c.third_party_libraries.find? (fun selfLic =>
        selfLic.package_name == lic.package_name &&
        selfLic.package_version == lic.package_version) with
    | none => rw [hf] at h; cases h
    | some sl => rw [hf] at h; exact ⟨sl, rfl, h⟩
  · rintro ⟨hroot, hall⟩
    refine ⟨hroot, fun lic hlic => ?_⟩
    rcases hall lic hlic with ⟨sl, hf, heq⟩
    rw [hf]
    exact heq

/-- **C2** counterexample to the claim as stated: `check_subset` accepts
a prior bundle whose only entry differs from the candidate's in the
`repository` field, so acceptance does *not* imply field-for-field
equality (with sub-license lists as sets). -/
theorem c2_counterexample :
    checkSubset
      { root_name := "root",
        third_party_libraries := [{ package_name := "pkg",
                                    package_version := "1.0.0",
                                    repository := "repoA", license := "MIT",
                                    licenses := [{ license := "MIT", text := "t" }] }] }
      { root_name := "root",
        third_party_libraries := [{ package_name := "pkg",
                                    package_version := "1.0.0",
                                    repository := "repoB", license := "MIT",
                                    licenses := [{ license := "MIT", text := "t" }] }] }
      = true ∧
    ¬ (∀ lic ∈ [{ package_name := "pkg", package_version := "1.0.0",
                  repository := "repoB", license := "MIT",
                  licenses := [{ license := "MIT", text := "t" }] }],
        ∃ sl ∈ [({ package_name := "pkg", package_version := "1.0.0",
                   repository := "repoA", license := "MIT",
                   licenses := [{ license := "MIT", text := "t" }] } : FinalizedLicense)],
          specFinalizedEq sl lic) := by
  constructor
  · rfl
  · intro h
    rcases h _ (List.mem_cons_self _ _) with ⟨sl, hsl, heq⟩
    rcases List.mem_singleton.mp hsl with rfl
    exact absurd heq.2.2.1 (by decide)

/-! ## Claim C1: the back-fill pass -/

/-- **C1** (amended): back-fill leaves a `FinalizedLicense` unchanged when
none of its texts is the sentinel or when the previous bundle lacks its
`(name, version)`; otherwise, *every* sub-license entry — including those
whose current text is not the sentinel — is rewritten to the previous
bundle's text whenever that previous text exists and is not the sentinel,
and keeps its text otherwise; the license identifier of each entry and
all other fields are unchanged. -/
theorem c1_backfill_characterization (prev : List FinalizedLicense)
    (lic : FinalizedLicense) :
    ((lic.licenses.any fun l => l.text == LICENSE_NOT_FOUNT_TEXT) = false →
      backfillOne prev lic = lic) ∧
    (lookupPrevPackage prev lic.package_name lic.package_version = none →
      backfillOne prev lic = lic) ∧
    (∀ prevLic,
      (lic.licenses.any fun l => l.text == LICENSE_NOT_FOUNT_TEXT) = true →
      lookupPrevPackage prev lic.package_name lic.package_version
        = some prevLic →
      (backfillOne prev lic).package_name = lic.package_name ∧
      (backfillOne prev lic).package_version = lic.package_version ∧
      (backfillOne prev lic).repository = lic.repository ∧
      (backfillOne prev lic).license = lic.license ∧
      (∀ (i : Nat) (inner : LicenseAndText), lic.licenses[i]? = some inner →
        ∃ inner', (backfillOne prev lic).licenses[i]? = some inner' ∧
          inner'.license = inner.license ∧
          ((∃ previous, lookupPrevLicense prevLic inner.license = some previous ∧
              previous.text ≠ LICENSE_NOT_FOUNT_TEXT ∧
              inner'.text = previous.text) ∨
            ((∀ previous,
                lookupPrevLicense prevLic inner.license = some previous →
                previous.text = LICENSE_NOT_FOUNT_TEXT) ∧
              inner'.text = inner.text)))) := by
  refine ⟨?_, ?_, ?_⟩
  · intro h
    unfold backfillOne
    simp [h]
  · intro h
    unfold backfillOne
    by_cases hany : (lic.licenses.any fun l => l.text == LICENSE_NOT_FOUNT_TEXT)
      = true
    · simp [hany, h]
    · simp [hany]
  · intro prevLic hany hlook
    have hstep : backfillOne prev lic
        = { lic with licenses := lic.licenses.map fun inner =>
              match lookupPrevLicense prevLic inner.license with
              | some previous =>
                if previous.text ≠ LICENSE_NOT_FOUNT_TEXT then
                  { inner with text := previous.text }
                else inner
              | none => inner } := by
      unfold backfillOne
      simp [hany, hlook]
    rw [hstep]
    refine ⟨rfl, rfl, rfl, rfl, ?_⟩
    intro i inner hi
    simp only [List.getElem?_map, hi, Option.map_some]
    cases hl : lookupPrevLicense prevLic inner.license with
    | none =>
      refine ⟨inner, by simp [hl], rfl, .inr ⟨?_, rfl⟩⟩
      intro p hp
      exact Option.noConfusion hp
    | some previous =>
      by_cases hne : previous.text ≠ LICENSE_NOT_FOUNT_TEXT
      · exact ⟨{ inner with text := previous.text }, by simp [hl, hne], rfl,
          .inl ⟨previous, rfl, hne, rfl⟩⟩
      · refine ⟨inner, by simp [hl, hne], rfl, .inr ⟨?_, rfl⟩⟩
        intro p hp
        injection hp with hp
        rw [← hp]
        exact not_not.mp hne

/-- **C1** counterexample to the claim as stated: a sub-license whose
current text is *not* the sentinel (`Apache-2.0` with `"textA"`) is
nevertheless overwritten with the previous bundle's `"textB"`, because a
sibling entry (`MIT`) has the sentinel text. -/
theorem c1_counterexample :
    (backfillOne
      [{ package_name := "pkg", package_version := "1.0.0", repository := "",
         license := "MIT OR Apache-2.0",
         licenses := [{ license := "Apache-2.0", text := "textB" }] }]
      { package_name := "pkg", package_version := "1.0.0", repository := "",
        license := "MIT OR Apache-2.0",
        licenses := [{ license := "MIT", text := "NOT FOUND" },
                     { license := "Apache-2.0", text := "textA" }] }).licenses
      = [{ license := "MIT", text := "NOT FOUND" },
         { license := "Apache-2.0", text := "textB" }] ∧
    ("textB" : String) ≠ "textA" := by
  constructor
  · rfl
  · decide

/-- **C1** witness: the amended theorem applied to the counterexample
package: the sentinel `MIT` entry has no previous entry and is kept, so
the third conjunct's hypotheses are dischargeable. -/
theorem c1_witness :
    (backfillOne
      [{ package_name := "pkg", package_version := "1.0.0", repository := "",
         license := "MIT OR Apache-2.0",
         licenses := [{ license := "Apache-2.0", text := "textB" }] }]
      { package_name := "pkg", package_version := "1.0.0", repository := "",
        license := "MIT OR Apache-2.0",
        licenses := [{ license := "MIT", text := "NOT FOUND" },
                     { license := "Apache-2.0", text := "textA" }] }).package_name
      = "pkg" :=
  ((c1_backfill_characterization
    [{ package_name := "pkg", package_version := "1.0.0", repository := "",
       license := "MIT OR Apache-2.0",
       licenses := [{ license := "Apache-2.0", text := "textB" }] }]
    { package_name := "pkg", package_version := "1.0.0", repository := "",
      license := "MIT OR Apache-2.0",
      licenses := [{ license := "MIT", text := "NOT FOUND" },
                   { license := "Apache-2.0", text := "textA" }] }).2.2
    { package_name := "pkg", package_version := "1.0.0", repository := "",
      license := "MIT OR Apache-2.0",
      licenses := [{ license := "Apache-2.0", text := "textB" }] }
    rfl rfl).1

/-! ## Claim C9: preference filtering -/

/-- **C9**: a package whose license string contains `"AND"` is left
entirely untouched by preference filtering; a package without `"AND"`
that resolved to multiple license alternatives, for which the first
preferred license matching some alternative is `preferred`, keeps exactly
the entries parsing to `preferred` and has its license string rewritten
to `preferred`'s display form. -/
theorem c9_preference_filtering (parse : String → License)
    (prefer : List License) (lic : FinalizedLicense) :
    (containsAND lic.license = true → preferStep parse prefer lic = lic) ∧
    (containsAND lic.license = false → 2 ≤ lic.licenses.length →
      ∀ preferred,
        prefer.find? (fun p =>
          lic.licenses.any fun l => licBeq (parse l.license) p)
          = some preferred →
        preferStep parse prefer lic
          = { lic with
              licenses := lic.licenses.filter
                fun l => licBeq (parse l.license) preferred,
              license := licToString preferred }) := by
  constructor
  · intro h
    unfold preferStep
    simp [h]
  · intro h _ preferred hfind
    unfold preferStep
    simp [h, hfind]

/-- **C9** witness: with preference `[MIT]`, a package declared
`"MIT OR Apache-2.0"` with both alternatives found keeps only the `MIT`
entry and reports `"MIT"`; and a package declared with `"AND"` is left
unchanged. -/
theorem c9_witness :
    preferStep (parseLicense fun _ => none) [.MIT]
      { package_name := "pkg", package_version := "1", repository := "r",
        license := "MIT OR Apache-2.0",
        licenses := [{ license := "Apache-2.0", text := "ta" },
                     { license := "MIT", text := "tm" }] }
      = { package_name := "pkg", package_version := "1", repository := "r",
          license := "MIT",
          licenses := [{ license := "MIT", text := "tm" }] } ∧
    preferStep (parseLicense fun _ => none) [.MIT]
      { package_name := "pkg", package_version := "1", repository := "r",
        license := "MIT AND Apache-2.0",
        licenses := [{ license := "Apache-2.0", text := "ta" },
                     { license := "MIT", text := "tm" }] }
      = { package_name := "pkg", package_version := "1", repository := "r",
          license := "MIT AND Apache-2.0",
          licenses := [{ license := "Apache-2.0", text := "ta" },
                       { license := "MIT", text := "tm" }] } := by
  constructor
  · exact (c9_preference_filtering (parseLicense fun _ => none) [.MIT] _).2
      (by decide) (by decide) .MIT (by rfl)
  · exact (c9_preference_filtering (parseLicense fun _ => none) [.MIT] _).1
      (by decide)

/-! ## Claim C6: choosing the best candidate -/

/-- **C6**: on candidate lists whose confidences come from template
matching (`Confident`, `SemiConfident`, `Unsure` or `NoTemplate` — the
only values `check_against_template` produces), `choose` scans the tiers
in priority order: within the first non-empty tier a single candidate is
returned as `Single`, several as `Multiple` of the whole tier, and when
every tier is empty the result is `(None, MissingLicenseFile)`. -/
theorem c6_choose_tiers (texts : List LicenseText)
    (h4 : ∀ t ∈ texts, t.confidence = .Confident ∨
      t.confidence = .SemiConfident ∨ t.confidence = .Unsure ∨
      t.confidence = .NoTemplate) :
    (∀ t, texts.filter (fun x => x.confidence == .Confident) = [t] →
      choose texts = (.Single t, .Confident)) ∧
    (2 ≤ (texts.filter fun x => x.confidence == .Confident).length →
      choose texts
        = (.Multiple (texts.filter fun x => x.confidence == .Confident),
            .Confident)) ∧
    ((texts.filter fun x => x.confidence == .Confident) = [] →
      (∀ t, texts.filter (fun x => x.confidence == .SemiConfident) = [t] →
        choose texts = (.Single t, .SemiConfident)) ∧
      (2 ≤ (texts.filter fun x => x.confidence == .SemiConfident).length →
        choose texts
          = (.Multiple (texts.filter fun x => x.confidence == .SemiConfident),
              .SemiConfident)) ∧
      ((texts.filter fun x => x.confidence == .SemiConfident) = [] →
        (∀ t, texts.filter (fun x => x.confidence == .Unsure) = [t] →
          choose texts = (.Single t, .Unsure)) ∧
        (2 ≤ (texts.filter fun x => x.confidence == .Unsure).length →
          choose texts
            = (.Multiple (texts.filter fun x => x.confidence == .Unsure),
                .Unsure)) ∧
        ((texts.filter fun x => x.confidence == .Unsure) = [] →
          (∀ t, texts.filter (fun x => x.confidence == .NoTemplate) = [t] →
            choose texts = (.Single t, .NoTemplate)) ∧
          (2 ≤ (texts.filter fun x => x.confidence == .NoTemplate).length →
            choose texts
              = (.Multiple (texts.filter fun x => x.confidence == .NoTemplate),
                  .NoTemplate)) ∧
          ((texts.filter fun x => x.confidence == .NoTemplate) = [] →
            choose texts = (.None, .MissingLicenseFile))))) := by
  have hsemi : (texts.filter (not ∘ fun x => x.confidence == .Confident)).filter
      (fun x => x.confidence == .SemiConfident)
      = texts.filter fun x => x.confidence == .SemiConfident := by
    rw [List.filter_filter]
    apply List.filter_congr
    intro t _
    simp only [Function.comp_apply]
    cases t.confidence <;> rfl
  have hrest2 : (texts.filter (not ∘ fun x => x.confidence == .Confident)).filter
      (not ∘ fun x => x.confidence == .SemiConfident)
      = texts.filter fun x =>
          !(x.confidence == .SemiConfident) && !(x.confidence == .Confident) := by
    rw [List.filter_filter]
    apply List.filter_congr
    intro t _
    simp only [Function.comp_apply]
  have huns : (texts.filter fun x =>
      !(x.confidence == .SemiConfident) && !(x.confidence == .Confident)).filter
      (fun x => x.confidence == .Unsure)
      = texts.filter fun x => x.confidence == .Unsure := by
    rw [List.filter_filter]
    apply List.filter_congr
    intro t _
    cases t.confidence <;> rfl
  have hnot : (texts.filter fun x =>
      !(x.confidence == .SemiConfident) && !(x.confidence == .Confident)).filter
      (not ∘ fun x => x.confidence == .Unsure)
      = texts.filter fun x => x.confidence == .NoTemplate := by
    rw [List.filter_filter]
    apply List.filter_congr
    intro t ht
    simp only [Function.comp_apply]
    rcases h4 t ht with h | h | h | h <;> rw [h] <;> rfl
  have hchoose : choose texts
      = (match texts.filter fun x => x.confidence == .Confident with
        | [single] => ((.Single single : BestChoice), Confidence.Confident)
        | a :: b :: rest => (.Multiple (a :: b :: rest), .Confident)
        | [] =>
          match texts.filter fun x => x.confidence == .SemiConfident with
          | [single] => (.Single single, .SemiConfident)
          | a :: b :: rest => (.Multiple (a :: b :: rest), .SemiConfident)
          | [] =>
            match texts.filter fun x => x.confidence == .Unsure with
            | [single] => (.Single single, .Unsure)
            | a :: b :: rest => (.Multiple (a :: b :: rest), .Unsure)
            | [] =>
              match texts.filter fun x => x.confidence == .NoTemplate with
              | [single] => (.Single single, .NoTemplate)
              | a :: b :: rest => (.Multiple (a :: b :: rest), .NoTemplate)
              | [] => (.None, .MissingLicenseFile)) := by
    unfold choose
    simp only [List.partition_eq_filter_filter]
    rw [hsemi, hrest2, huns, hnot]
  have hcons : ∀ (l : List LicenseText), 2 ≤ l.length →
      ∃ a b rest, l = a :: b :: rest := by
    intro l hl
    cases l with
    | nil => simp at hl
    | cons a tail =>
      cases tail with
      | nil => simp at hl
      | cons b rest => exact ⟨a, b, rest, rfl⟩
  refine ⟨?_, ?_, ?_⟩
  · intro t ht
    rw [hchoose, ht]
  · intro hlen
    rcases hcons _ hlen with ⟨a, b, rest, heq⟩
    rw [hchoose, heq]
  · intro hc
    refine ⟨?_, ?_, ?_⟩
    · intro t ht
      rw [hchoose, hc, ht]
    · intro hlen
      rcases hcons _ hlen with ⟨a, b, rest, heq⟩
      rw [hchoose, hc, heq]
    · intro hs
      refine ⟨?_, ?_, ?_⟩
      · intro t ht
        rw [hchoose, hc, hs, ht]
      · intro hlen
        rcases hcons _ hlen with ⟨a, b, rest, heq⟩
        rw [hchoose, hc, hs, heq]
      · intro hu
        refine ⟨?_, ?_, ?_⟩
        · intro t ht
          rw [hchoose, hc, hs, hu, ht]
        · intro hlen
          rcases hcons _ hlen with ⟨a, b, rest, heq⟩
          rw [hchoose, hc, hs, hu, heq]
        · intro hn
          rw [hchoose, hc, hs, hu, hn]

/-- **C6** witness: with one `Confident` and one `Unsure` candidate the
`Confident` one is the single best choice. -/
theorem c6_witness :
    choose [{ path := "p1", text := "t1", confidence := .Confident },
            { path := "p2", text := "t2", confidence := .Unsure }]
      = (.Single { path := "p1", text := "t1", confidence := .Confident },
          .Confident) :=
  (c6_choose_tiers _ (by decide)).1 _ rfl

/-! ## Helper lemmas: frequency maps -/

theorem lookupFreq_bump (f : Freq) (w x : String) :
    lookupFreq (bump f w) x = lookupFreq f x + (if x = w then 1 else 0) := by
  induction f with
  | nil =>
    by_cases h : x = w
    · simp [bump, lookupFreq, h]
    · simp only [bump, lookupFreq,
        if_neg (fun he : w = x => h he.symm), if_neg h]
  | cons kc rest ih =>
    obtain ⟨k, c⟩ := kc
    by_cases hk : k = w
    · simp only [bump, if_pos hk, lookupFreq]
      by_cases hx : k = x
      · rw [if_pos hx, if_pos hx, if_pos (hx.symm.trans hk)]
      · rw [if_neg hx, if_neg hx,
          if_neg (fun he : x = w => hx (hk.trans he.symm))]
        omega
    · simp only [bump, if_neg hk, lookupFreq]
      by_cases hx : k = x
      · rw [if_pos hx, if_pos hx,
          if_neg (fun he : x = w => hk (hx.trans he))]
        omega
      · rw [if_neg hx, if_neg hx]
        exact ih

theorem mem_freqKeys_bump (f : Freq) (w x : String) :
    x ∈ freqKeys (bump f w) ↔ x ∈ freqKeys f ∨ x = w := by
  induction f with
  | nil => simp [bump, freqKeys, eq_comm]
  | cons kc rest ih =>
    obtain ⟨k, c⟩ := kc
    by_cases hk : k = w
    · simp only [bump, if_pos hk]
      have h1 : freqKeys ((k, c + 1) :: rest) = k :: freqKeys rest := rfl
      have h2 : freqKeys ((k, c) :: rest) = k :: freqKeys rest := rfl
      rw [h1, h2]
      simp only [List.mem_cons]
      constructor
      · rintro (h | h)
        · exact .inl (.inl h)
        · exact .inl (.inr h)
      · rintro ((h | h) | h)
        · exact .inl h
        · exact .inr h
        · exact .inl (h.trans hk.symm)
    · simp only [bump, if_neg hk]
      have h1 : freqKeys ((k, c) :: bump rest w) = k :: freqKeys (bump rest w) := rfl
      have h2 : freqKeys ((k, c) :: rest) = k :: freqKeys rest := rfl
      rw [h1, h2]
      simp only [List.mem_cons, ih]
      tauto

theorem nodupKeys_bump (f : Freq) (w : String) (h : NodupKeys f) :
    NodupKeys (bump f w) := by
  induction f with
  | nil => simp [bump, NodupKeys, freqKeys]
  | cons kc rest ih =>
    obtain ⟨k, c⟩ := kc
    have hrest : NodupKeys rest := (List.pairwise_cons.mp h).2
    have hknot : ∀ y ∈ freqKeys rest, k ≠ y := by
      intro y hy
      exact (List.pairwise_cons.mp h).1 y hy
    by_cases hk : k = w
    · simpa [bump, hk, NodupKeys, freqKeys] using h
    · simp only [bump, if_neg hk]
      refine List.pairwise_cons.mpr ⟨?_, ih hrest⟩
      intro y hy
      rcases (mem_freqKeys_bump rest w y).mp hy with hm | he
      · exact hknot y hm
      · exact fun hc => hk (hc.trans he)

theorem bump_values_sum (f : Freq) (w : String) :
    ((bump f w).map fun kc => kc.2).sum = ((f.map fun kc => kc.2).sum) + 1 := by
  induction f with
  | nil => simp [bump]
  | cons kc rest ih =>
    obtain ⟨k, c⟩ := kc
    by_cases hk : k = w
    · simp only [bump, if_pos hk, List.map_cons, List.sum_cons]
      omega
    · simp only [bump, if_neg hk, List.map_cons, List.sum_cons, ih]
      omega

theorem lookupFreq_addFrequencies (ws : List String) :
    ∀ (f : Freq) (x : String),
      lookupFreq (addFrequencies f ws) x = lookupFreq f x + ws.count x := by
  induction ws with
  | nil => intro f x; simp [addFrequencies]
  | cons w ws ih =>
    intro f x
    have hstep : addFrequencies f (w :: ws) = addFrequencies (bump f w) ws := rfl
    rw [hstep, ih (bump f w) x, lookupFreq_bump]
    by_cases hx : x = w
    · simp [hx, List.count_cons]
      omega
    · have : ¬ (x == w) = true := by simpa using hx
      simp [List.count_cons, this, hx]

theorem mem_freqKeys_addFrequencies (ws : List String) :
    ∀ (f : Freq) (x : String),
      x ∈ freqKeys (addFrequencies f ws) ↔ x ∈ freqKeys f ∨ x ∈ ws := by
  induction ws with
  | nil => intro f x; simp [addFrequencies]
  | cons w ws ih =>
    intro f x
    have hstep : addFrequencies f (w :: ws) = addFrequencies (bump f w) ws := rfl
    rw [hstep, ih (bump f w) x, mem_freqKeys_bump]
    simp [List.mem_cons]
    tauto

theorem nodupKeys_addFrequencies (ws : List String) :
    ∀ f : Freq, NodupKeys f → NodupKeys (addFrequencies f ws) := by
  induction ws with
  | nil => intro f h; exact h
  | cons w ws ih =>
    intro f h
    exact ih (bump f w) (nodupKeys_bump f w h)

theorem addFrequencies_values_sum (ws : List String) :
    ∀ f : Freq,
      ((addFrequencies f ws).map fun kc => kc.2).sum
        = ((f.map fun kc => kc.2).sum) + ws.length := by
  induction ws with
  | nil => intro f; simp [addFrequencies]
  | cons w ws ih =>
    intro f
    have hstep : addFrequencies f (w :: ws) = addFrequencies (bump f w) ws := rfl
    rw [hstep, ih (bump f w), bump_values_sum]
    simp
    omega

theorem lookupFreq_calculateFrequency (ws : List String) (x : String) :
    lookupFreq (calculateFrequency ws) x = ws.count x := by
  have := lookupFreq_addFrequencies ws [] x
  simpa [calculateFrequency, lookupFreq] using this

theorem mem_freqKeys_calculateFrequency (ws : List String) (x : String) :
    x ∈ freqKeys (calculateFrequency ws) ↔ x ∈ ws := by
  have := mem_freqKeys_addFrequencies ws [] x
  simpa [calculateFrequency, freqKeys] using this

theorem nodupKeys_calculateFrequency (ws : List String) :
    NodupKeys (calculateFrequency ws) :=
  nodupKeys_addFrequencies ws [] (by simp [NodupKeys, freqKeys])

theorem calculateFrequency_values_sum (ws : List String) :
    ((calculateFrequency ws).map fun kc => kc.2).sum = ws.length := by
  have := addFrequencies_values_sum ws []
  simpa [calculateFrequency] using this

theorem lookupFreq_eq_of_mem :
    ∀ (f : Freq), NodupKeys f → ∀ {w : String} {c : Nat}, (w, c) ∈ f →
      lookupFreq f w = c := by
  intro f
  induction f with
  | nil => intro _ w c h; cases h
  | cons kc rest ih =>
    obtain ⟨k, c'⟩ := kc
    intro h w c hm
    rcases List.mem_cons.mp hm with he | hm
    · injection he with h1 h2
      simp [lookupFreq, h1.symm, h2]
    · have hkw : k ≠ w := by
        intro hk
        have : w ∈ freqKeys rest := by
          simp only [freqKeys, List.mem_map]
          exact ⟨(w, c), hm, rfl⟩
        exact (List.pairwise_cons.mp h).1 w this hk
      simp only [lookupFreq, hkw, if_false]
      exact ih (List.pairwise_cons.mp h).2 hm

theorem lookupFreq_eq_zero_of_not_mem :
    ∀ (f : Freq) {w : String}, w ∉ freqKeys f → lookupFreq f w = 0 := by
  intro f
  induction f with
  | nil => intro w _; rfl
  | cons kc rest ih =>
    obtain ⟨k, c⟩ := kc
    intro w h
    have hcons : freqKeys ((k, c) :: rest) = k :: freqKeys rest := rfl
    rw [hcons, List.mem_cons, not_or] at h
    simp only [lookupFreq, if_neg (fun hc : k = w => h.1 hc.symm)]
    exact ih h.2

theorem removeEntry_not_mem :
    ∀ (f : Freq) {w : String}, w ∉ freqKeys f → removeEntry f w = (none, f) := by
  intro f
  induction f with
  | nil => intro w _; rfl
  | cons kc rest ih =>
    obtain ⟨k, c⟩ := kc
    intro w h
    have hcons : freqKeys ((k, c) :: rest) = k :: freqKeys rest := rfl
    rw [hcons, List.mem_cons, not_or] at h
    simp only [removeEntry, if_neg (fun hc : k = w => h.1 hc.symm)]
    rw [ih h.2]

theorem removeEntry_fst_mem :
    ∀ (f : Freq) {w : String}, w ∈ freqKeys f →
      (removeEntry f w).1 = some (lookupFreq f w) := by
  intro f
  induction f with
  | nil => intro w h; cases h
  | cons kc rest ih =>
    obtain ⟨k, c⟩ := kc
    intro w h
    by_cases hk : k = w
    · simp [removeEntry, lookupFreq, hk]
    · have hm : w ∈ freqKeys rest := by
        have hcons : freqKeys ((k, c) :: rest) = k :: freqKeys rest := rfl
        rw [hcons, List.mem_cons] at h
        rcases h with he | hm
        · exact absurd he.symm hk
        · exact hm
      simp only [removeEntry, if_neg hk, lookupFreq]
      exact ih hm

theorem removeEntry_snd_eq_filter :
    ∀ (f : Freq) {w : String}, NodupKeys f →
      (removeEntry f w).2 = f.filter fun kc => !(kc.1 == w) := by
  intro f
  induction f with
  | nil => intro w _; rfl
  | cons kc rest ih =>
    obtain ⟨k, c⟩ := kc
    intro w h
    have hrest : NodupKeys rest := (List.pairwise_cons.mp h).2
    by_cases hk : k = w
    · have hrestfix : rest.filter (fun kc => !(kc.1 == w)) = rest := by
        apply List.filter_eq_self.mpr
        intro a ha
        have hmem : a.1 ∈ freqKeys rest := List.mem_map.mpr ⟨a, ha, rfl⟩
        have hne : w ≠ a.1 := fun he =>
          (List.pairwise_cons.mp h).1 a.1 hmem (hk.trans he)
        simp only [Bool.not_eq_eq_eq_not, Bool.not_true, beq_eq_false_iff_ne]
        exact fun he => hne he.symm
      have hdrop : ((k, c).1 == w) = true := by simp [hk]
      simp only [removeEntry, if_pos hk]
      simp [List.filter_cons, hdrop, hrestfix]
    · have hkeep : ((k, c).1 == w) = false := by
        simp [beq_eq_false_iff_ne, hk]
      simp only [removeEntry, if_neg hk]
      rw [ih hrest]
      simp [List.filter_cons, hkeep]

theorem nodupKeys_filter (f : Freq) (p : String × Nat → Bool)
    (h : NodupKeys f) : NodupKeys (f.filter p) := by
  have hsub : (f.filter p).Sublist f := List.filter_sublist f
  have hsub2 : ((f.filter p).map fun kc : String × Nat => kc.1).Sublist
      (f.map fun kc : String × Nat => kc.1) :=
    hsub.map fun kc => kc.1
  exact List.Nodup.sublist hsub2 h

theorem lookupFreq_filter_ne :
    ∀ (f : Freq) {w x : String}, x ≠ w →
      lookupFreq (f.filter fun kc => !(kc.1 == w)) x = lookupFreq f x := by
  intro f
  induction f with
  | nil => intro w x _; rfl
  | cons kc rest ih =>
    obtain ⟨k, c⟩ := kc
    intro w x hne
    by_cases hk : k = w
    · have hdrop : ((k, c).1 == w) = true := by simp [hk]
      have hkx : ¬ k = x := fun he => hne (he.symm.trans hk)
      simp [List.filter_cons, hdrop, lookupFreq, hkx, ih hne]
    · have hkeep : ((k, c).1 == w) = false := by
        simp [beq_eq_false_iff_ne, hk]
      by_cases hx : k = x
      · simp [List.filter_cons, hkeep, lookupFreq, hx, hne]
      · simp [List.filter_cons, hkeep, lookupFreq, hx, ih hne]

theorem compareFreq_formula :
    ∀ (templ txt : Freq), NodupKeys txt → NodupKeys templ →
      compareFreq txt templ
        = ((templ.map fun kc =>
            ((lookupFreq txt kc.1 : Int) - (kc.2 : Int)).natAbs).sum)
          + (((txt.filter fun kc =>
              !((freqKeys templ).contains kc.1)).map fun kc => kc.2).sum) := by
  intro templ
  induction templ with
  | nil =>
    intro txt htxt _
    simp only [compareFreq, List.map_nil, List.sum_nil, Nat.zero_add]
    have hfix : (txt.filter fun kc =>
        !((freqKeys ([] : Freq)).contains kc.1)) = txt :=
      List.filter_eq_self.mpr fun a _ => rfl
    rw [hfix]
  | cons wc rest ih =>
    obtain ⟨w, c⟩ := wc
    intro txt htxt htempl
    have hrest : NodupKeys rest := (List.pairwise_cons.mp htempl).2
    have hwrest : w ∉ freqKeys rest := by
      intro hm
      exact (List.pairwise_cons.mp htempl).1 w hm rfl
    have hkeystempl : freqKeys ((w, c) :: rest) = w :: freqKeys rest := rfl
    simp only [compareFreq]
    by_cases hw : w ∈ freqKeys txt
    · rw [removeEntry_fst_mem txt hw, removeEntry_snd_eq_filter txt htxt,
        ih _ (nodupKeys_filter txt _ htxt) hrest]
      simp only [Option.getD_some, List.map_cons, List.sum_cons]
      have hpiece2' : (rest.map fun kc =>
            ((lookupFreq (txt.filter fun kc => !(kc.1 == w)) kc.1 : Int)
              - (kc.2 : Int)).natAbs)
          = rest.map fun kc =>
              ((lookupFreq txt kc.1 : Int) - (kc.2 : Int)).natAbs := by
        apply List.map_congr_left
        intro kc hkc
        have hne : kc.1 ≠ w := by
          intro he
          exact hwrest (he ▸ List.mem_map.mpr ⟨kc, hkc, rfl⟩)
        rw [lookupFreq_filter_ne txt hne]
      have hpiece3 : ((txt.filter fun kc => !(kc.1 == w)).filter fun kc =>
            !((freqKeys rest).contains kc.1))
          = txt.filter fun kc =>
              !((freqKeys ((w, c) :: rest)).contains kc.1) := by
        rw [List.filter_filter]
        apply List.filter_congr
        intro kc _
        rw [hkeystempl, List.contains_cons, Bool.not_or, Bool.and_comm]
      rw [hpiece2', hpiece3]
      omega
    · rw [removeEntry_not_mem txt hw]
      simp only [Option.getD_none, List.map_cons, List.sum_cons]
      rw [ih txt htxt hrest]
      have hzero : lookupFreq txt w = 0 := lookupFreq_eq_zero_of_not_mem txt hw
      have hpiece3 : (txt.filter fun kc => !((freqKeys rest).contains kc.1))
          = txt.filter fun kc =>
              !((freqKeys ((w, c) :: rest)).contains kc.1) := by
        apply List.filter_congr
        intro kc hkc
        have hne : (kc.1 == w) = false := by
          rw [beq_eq_false_iff_ne]
          intro he
          exact hw (he ▸ List.mem_map.mpr ⟨kc, hkc, rfl⟩)
        rw [hkeystempl, List.contains_cons, hne, Bool.false_or]
      rw [hzero, hpiece3]
      omega

theorem contains_iff_mem_str (l : List String) (x : String) :
    l.contains x = true ↔ x ∈ l :=
  List.elem_iff

theorem mem_freqKeys_iff (f : Freq) (x : String) :
    x ∈ freqKeys f ↔ ∃ c, (x, c) ∈ f := by
  constructor
  · intro h
    rcases List.mem_map.mp h with ⟨kc, hkc, he⟩
    exact ⟨kc.2, by rw [← he]; exact hkc⟩
  · rintro ⟨c, hc⟩
    exact List.mem_map.mpr ⟨(x, c), hc, rfl⟩

theorem compareFreq_calc_eq_errSpec (tw text : List String) :
    compareFreq (calculateFrequency text) (calculateFrequency tw)
      = errSpec tw text := by
  rw [compareFreq_formula (calculateFrequency tw) (calculateFrequency text)
    (nodupKeys_calculateFrequency text) (nodupKeys_calculateFrequency tw)]
  unfold errSpec
  congr 1
  · -- template part
    have hA : ((calculateFrequency tw).map fun kc =>
          ((lookupFreq (calculateFrequency text) kc.1 : Int)
            - (kc.2 : Int)).natAbs)
        = (calculateFrequency tw).map fun kc =>
            ((text.count kc.1 : Int) - (tw.count kc.1 : Int)).natAbs := by
      apply List.map_congr_left
      intro kc hkc
      have h1 : lookupFreq (calculateFrequency text) kc.1 = text.count kc.1 :=
        lookupFreq_calculateFrequency text kc.1
      have h2 : (kc.2 : Nat) = tw.count kc.1 := by
        have := lookupFreq_eq_of_mem (calculateFrequency tw)
          (nodupKeys_calculateFrequency tw) (w := kc.1) (c := kc.2) hkc
        rw [lookupFreq_calculateFrequency] at this
        exact this.symm
      rw [h1, h2]
    rw [hA]
    have hB : ((calculateFrequency tw).map fun kc =>
          ((text.count kc.1 : Int) - (tw.count kc.1 : Int)).natAbs)
        = (freqKeys (calculateFrequency tw)).map fun w =>
            ((text.count w : Int) - (tw.count w : Int)).natAbs := by
      unfold freqKeys
      rw [List.map_map]
      rfl
    rw [hB]
    have hC := List.sum_toFinset
      (fun w => ((text.count w : Int) - (tw.count w : Int)).natAbs)
      (nodupKeys_calculateFrequency tw)
    rw [← hC]
    have hD : (freqKeys (calculateFrequency tw)).toFinset = tw.toFinset := by
      apply Finset.ext
      intro x
      rw [List.mem_toFinset, List.mem_toFinset,
        mem_freqKeys_calculateFrequency]
    rw [hD]
  · -- leftover text part
    set filtered := (calculateFrequency text).filter fun kc =>
      !((freqKeys (calculateFrequency tw)).contains kc.1) with hfiltered
    have hval : (filtered.map fun kc => kc.2)
        = filtered.map fun kc => text.count kc.1 := by
      apply List.map_congr_left
      intro kc hkc
      have hmem : kc ∈ calculateFrequency text :=
        (List.mem_filter.mp hkc).1
      have := lookupFreq_eq_of_mem (calculateFrequency text)
        (nodupKeys_calculateFrequency text) (w := kc.1) (c := kc.2) hmem
      rw [lookupFreq_calculateFrequency] at this
      exact this.symm
    rw [hval]
    have hB : (filtered.map fun kc => text.count kc.1)
        = (freqKeys filtered).map fun w => text.count w := by
      unfold freqKeys
      rw [List.map_map]
      rfl
    rw [hB]
    have hnd : (freqKeys filtered).Nodup :=
      nodupKeys_filter _ _ (nodupKeys_calculateFrequency text)
    have hC := List.sum_toFinset (fun w => text.count w) hnd
    rw [← hC]
    have hD : (freqKeys filtered).toFinset
        = text.toFinset \ tw.toFinset := by
      apply Finset.ext
      intro x
      rw [List.mem_toFinset, Finset.mem_sdiff, List.mem_toFinset,
        List.mem_toFinset]
      constructor
      · intro hx
        rcases (mem_freqKeys_iff filtered x).mp hx with ⟨c, hc⟩
        have h1 := List.mem_filter.mp hc
        have hxtext : x ∈ text :=
          (mem_freqKeys_calculateFrequency text x).mp
            (List.mem_map.mpr ⟨(x, c), h1.1, rfl⟩)
        have hxnottw : x ∉ tw := by
          intro hxtw
          have hxkeys : x ∈ freqKeys (calculateFrequency tw) :=
            (mem_freqKeys_calculateFrequency tw x).mpr hxtw
          have := (contains_iff_mem_str _ x).mpr hxkeys
          rw [this] at h1
          exact Bool.noConfusion h1.2
        exact ⟨hxtext, hxnottw⟩
      · rintro ⟨hxtext, hxnottw⟩
        have hxkeys : x ∈ freqKeys (calculateFrequency text) :=
          (mem_freqKeys_calculateFrequency text x).mpr hxtext
        rcases (mem_freqKeys_iff _ x).mp hxkeys with ⟨c, hc⟩
        apply (mem_freqKeys_iff filtered x).mpr
        refine ⟨c, List.mem_filter.mpr ⟨hc, ?_⟩⟩
        have : ¬ ((freqKeys (calculateFrequency tw)).contains x = true) := by
          intro hcon
          exact hxnottw ((mem_freqKeys_calculateFrequency tw x).mp
            ((contains_iff_mem_str _ x).mp hcon))
        simp only [Bool.not_eq_eq_eq_not, Bool.not_true]
        exact Bool.eq_false_iff.mpr fun he => this he
    rw [hD]

theorem optionMapM_eq_none {α β : Type} (f : α → Option β) :
    ∀ (l : List α), (∃ a ∈ l, f a = none) → optionMapM f l = none := by
  intro l
  induction l with
  | nil => rintro ⟨a, ha, _⟩; cases ha
  | cons a as ih =>
    rintro ⟨b, hb, hfb⟩
    rcases List.mem_cons.mp hb with he | hb
    · simp [optionMapM, ← he, hfb]
    · cases hfa : f a with
      | none => simp [optionMapM, hfa]
      | some v => simp [optionMapM, hfa, ih ⟨b, hb, hfb⟩]

theorem foldl_addFrequencies :
    ∀ (ts : List (List String)) (init : Freq),
      ts.foldl addFrequencies init = addFrequencies init ts.flatten := by
  intro ts
  induction ts with
  | nil => intro init; rfl
  | cons t ts ih =>
    intro init
    have h1 : (t :: ts).foldl addFrequencies init
        = ts.foldl addFrequencies (addFrequencies init t) := rfl
    rw [h1, ih]
    unfold addFrequencies
    rw [List.flatten_cons, List.foldl_append]

/-! ## Claim C7: confidence scoring -/

/-- **C7**: `check_against_template` returns `NoTemplate` for a
non-`Multiple` license without a template, and for a `Multiple` when any
member lacks a template; otherwise the error total is, per distinct
template word, the absolute difference between template count and text
count, plus the full count of every text word absent from the template
(`errSpec`), with the total being the number of template word
occurrences; for `Multiple`, the template is the concatenation (summed
union) of all member templates.  Thresholds: `errors*10 < total` →
`Confident`, `errors*20 < total*3` → `SemiConfident`, else `Unsure`
(`scoreConfidence`, the exact reading of `score < 0.10` / `< 0.15`). -/
theorem c7_check_against_template
    (templateOf : License → Option (List String)) (text : List String) :
    (∀ license, (∀ ls, license ≠ .Multiple ls) → templateOf license = none →
      checkAgainstTemplate templateOf text license = .NoTemplate) ∧
    (∀ ls, (∃ m ∈ ls, templateOf m = none) →
      checkAgainstTemplate templateOf text (.Multiple ls) = .NoTemplate) ∧
    (∀ license tw, (∀ ls, license ≠ .Multiple ls) →
      templateOf license = some tw →
      checkAgainstTemplate templateOf text license
        = scoreConfidence (errSpec tw text) tw.length) ∧
    (∀ ls ts, optionMapM templateOf ls = some ts →
      checkAgainstTemplate templateOf text (.Multiple ls)
        = scoreConfidence (errSpec ts.flatten text) ts.flatten.length) := by
  refine ⟨?_, ?_, ?_, ?_⟩
  · intro license h hnone
    cases license
    case Multiple ls => exact absurd rfl (h ls)
    all_goals simp [checkAgainstTemplate, hnone]
  · intro ls hex
    have hnone := optionMapM_eq_none templateOf ls hex
    simp [checkAgainstTemplate, hnone]
  · intro license tw h hsome
    cases license
    case Multiple ls => exact absurd rfl (h ls)
    all_goals
      simp [checkAgainstTemplate, hsome, compareFreq_calc_eq_errSpec,
        calculateFrequency_values_sum]
  · intro ls ts hsome
    simp only [checkAgainstTemplate, hsome]
    rw [foldl_addFrequencies]
    have h1 : addFrequencies [] ts.flatten = calculateFrequency ts.flatten :=
      rfl
    rw [h1, compareFreq_calc_eq_errSpec, calculateFrequency_values_sum]

/-- **C7** witness: the template-scoring conjunct applied to a concrete
one-template oracle: template `["hello", "world"]` against text
`["hello", "hello"]` has error total 2 (one extra `hello`, one missing
`world`) out of 2 template words. -/
theorem c7_witness :
    checkAgainstTemplate
      (fun l => if licBeq l .MIT then some ["hello", "world"] else none)
      ["hello", "hello"] .MIT
      = scoreConfidence (errSpec ["hello", "world"] ["hello", "hello"]) 2 :=
  (c7_check_against_template
    (fun l => if licBeq l .MIT then some ["hello", "world"] else none)
    ["hello", "hello"]).2.2.1 .MIT ["hello", "world"]
    (fun _ h => License.noConfusion h) rfl

/-! ## Helper lemmas: the dependency traversal -/

theorem bfs_terminal (meta : Metadata) (roots : List Pkg)
    (added : List Nat) (res : List Pkg)
    (hinv : BfsInv meta roots [] added res) : BfsGood meta roots res := by
  obtain ⟨h1, h2, h3, h4, h5, h6, h7, h8⟩ := hinv
  have hmem : ∀ pid, pid ∈ res.map (fun p => p.id) ↔ pid ∈ added := by
    intro pid
    rw [h7, List.mem_reverse]
  have hclosed : ∀ pid, Reachable meta roots pid → pid ∈ added := by
    intro pid hr
    induction hr with
    | root hp =>
      rename_i p
      rcases h5 p hp with h | h
      · exact h
      · exact absurd h (List.not_mem_nil _)
    | step hr hsucc ih =>
      rename_i i j
      rcases h4 i ih j hsucc with h | h
      · exact h
      · exact absurd h (List.not_mem_nil _)
  refine ⟨?_, ?_, h8, ?_⟩
  · intro pid
    rw [hmem]
    exact ⟨h2 pid, hclosed pid⟩
  · have : res.map (fun p => p.id) = added.reverse := by
      rw [h7, List.reverse_reverse]
    rw [this]
    exact List.nodup_reverse.mpr h6
  · intro pid hp
    exact h3 pid ((hmem pid).mp hp)

theorem findNode_deps_le (meta : Metadata) {id : Nat} {deps : List NodeDep}
    (h : findNode meta.nodes id = some deps) : deps.length ≤ totalDeps meta := by
  unfold findNode at h
  cases hf : meta.nodes.find? (fun n => n.id == id) with
  | none => rw [hf] at h; cases h
  | some n =>
    rw [hf] at h
    have h2 : some n.deps = some deps := h
    injection h2 with h
    have hmem : n ∈ meta.nodes := List.mem_of_find?_eq_some hf
    have hlenmem : n.deps.length ∈ meta.nodes.map fun n => n.deps.length :=
      List.mem_map.mpr ⟨n, hmem, rfl⟩
    have := List.single_le_sum (fun x _ => Nat.zero_le x) _ hlenmem
    rw [← h]
    exact this

theorem normalSucc_length_le (meta : Metadata) (id : Nat) :
    (normalSucc meta id).length ≤ totalDeps meta := by
  unfold normalSucc
  cases hn : findNode meta.nodes id with
  | none => exact Nat.zero_le _
  | some deps =>
    have h1 : ((deps.filter fun d => d.dep_kinds.any fun k => k == .normal).map
        fun d => d.pkg).length ≤ deps.length := by
      rw [List.length_map]
      exact List.length_filter_le _ _
    exact h1.trans (findNode_deps_le meta hn)

theorem filter_notmem_cons_lt {U : List Nat} {id : Nat} (added : List Nat)
    (hU : id ∈ U) (hadd : id ∉ added) :
    (U.filter fun i => ¬ i ∈ (id :: added)).length
      < (U.filter fun i => ¬ i ∈ added).length := by
  have hsub : (U.filter fun i => ¬ i ∈ (id :: added)).Sublist
      (U.filter fun i => ¬ i ∈ added) := by
    apply List.monotone_filter_right
    intro a ha
    simp only [decide_eq_true_eq] at ha ⊢
    exact fun hm => ha (List.mem_cons_of_mem _ hm)
  rcases Nat.lt_or_ge (U.filter fun i => ¬ i ∈ (id :: added)).length
    (U.filter fun i => ¬ i ∈ added).length with h | h
  · exact h
  · exfalso
    have heq := hsub.eq_of_length (Nat.le_antisymm hsub.length_le h)
    have hmem1 : id ∈ U.filter fun i => ¬ i ∈ added := by
      apply List.mem_filter.mpr
      exact ⟨hU, by simpa using hadd⟩
    rw [← heq] at hmem1
    have := (List.mem_filter.mp hmem1).2
    simp only [decide_eq_true_eq] at this
    exact this (List.mem_cons_self id added)

theorem bfsMeasure_seen (meta : Metadata) (id : Nat) (rest added : List Nat) :
    bfsMeasure meta rest added < bfsMeasure meta (id :: rest) added := by
  unfold bfsMeasure
  simp only [List.length_cons]
  omega

theorem bfsMeasure_new (meta : Metadata) (id : Nat) (rest added pushed : List Nat)
    (hlen : pushed.length ≤ totalDeps meta)
    (hU : id ∈ meta.packages.map fun p => p.id) (hadd : id ∉ added) :
    bfsMeasure meta (pushed ++ rest) (id :: added)
      < bfsMeasure meta (id :: rest) added := by
  unfold bfsMeasure
  have hc := filter_notmem_cons_lt (U := meta.packages.map fun p => p.id)
    added hU hadd
  have h3 : (totalDeps meta + 1) *
      (((meta.packages.map fun p => p.id).filter
        fun i => ¬ i ∈ (id :: added)).length + 1)
      ≤ (totalDeps meta + 1) *
        ((meta.packages.map fun p => p.id).filter
          fun i => ¬ i ∈ added).length :=
    Nat.mul_le_mul_left _ hc
  rw [Nat.mul_add, Nat.mul_one] at h3
  simp only [List.length_append, List.length_cons]
  omega

theorem bfs_main (meta : Metadata) (roots : List Pkg) :
    ∀ (fuel : Nat) (queue added : List Nat) (result : List Pkg),
      BfsInv meta roots queue added result →
      bfsMeasure meta queue added ≤ fuel →
      ((∀ id, Reachable meta roots id → lookupOk meta id) →
        ∃ out, bfsAux meta fuel queue added result = .ok out) ∧
      (∀ out, bfsAux meta fuel queue added result = .ok out →
        BfsGood meta roots out) := by
  intro fuel
  induction fuel with
  | zero =>
    intro queue added result hinv hm
    cases queue with
    | nil =>
      constructor
      · intro _
        exact ⟨result, rfl⟩
      · intro out hout
        have h2 : (Except.ok result : Except BfsError (List Pkg))
            = .ok out := hout
        injection h2 with h2
        rw [← h2]
        exact bfs_terminal meta roots added result hinv
    | cons id rest =>
      exfalso
      unfold bfsMeasure at hm
      simp only [List.length_cons] at hm
      omega
  | succ fuel ih =>
    intro queue added result hinv hm
    cases queue with
    | nil =>
      constructor
      · intro _
        exact ⟨result, rfl⟩
      · intro out hout
        have h2 : (Except.ok result : Except BfsError (List Pkg))
            = .ok out := hout
        injection h2 with h2
        rw [← h2]
        exact bfs_terminal meta roots added result hinv
    | cons id rest =>
      obtain ⟨h1, h2, h3, h4, h5, h6, h7, h8⟩ := hinv
      by_cases hmem : id ∈ added
      · have hstep : bfsAux meta (fuel + 1) (id :: rest) added result
            = bfsAux meta fuel rest added result := by
          simp [bfsAux, hmem]
        rw [hstep]
        apply ih rest added result
        · refine ⟨fun i hi => h1 i (List.mem_cons_of_mem _ hi),
            h2, h3, ?_, ?_, h6, h7, h8⟩
          · intro a ha d hd
            rcases h4 a ha d hd with h | h
            · exact .inl h
            · rcases List.mem_cons.mp h with he | h
              · exact .inl (he ▸ hmem)
              · exact .inr h
          · intro r hr
            rcases h5 r hr with h | h
            · exact .inl h
            · rcases List.mem_cons.mp h with he | h
              · exact .inl (he ▸ hmem)
              · exact .inr h
        · have := bfsMeasure_seen meta id rest added
          omega
      · cases hfind : findPkg meta.packages id with
        | none =>
          have hstep : bfsAux meta (fuel + 1) (id :: rest) added result
              = .error (.packageNotFound id) := by
            simp [bfsAux, hmem, hfind]
          rw [hstep]
          constructor
          · intro hall
            exfalso
            have hreach := h1 id (List.mem_cons_self _ _)
            have hok := (hall id hreach).1
            rw [hfind] at hok
            cases hok
          · intro out hout
            cases hout
        | some p =>
          cases hnode : findNode meta.nodes id with
          | none =>
            have hstep : bfsAux meta (fuel + 1) (id :: rest) added result
                = .error (.packageNotFound id) := by
              simp [bfsAux, hmem, hfind, hnode]
            rw [hstep]
            constructor
            · intro hall
              exfalso
              have hreach := h1 id (List.mem_cons_self _ _)
              have hok := (hall id hreach).2
              rw [hnode] at hok
              cases hok
            · intro out hout
              cases hout
          | some deps =>
            have hpid : p.id = id := by
              have := List.find?_some hfind
              simpa using this
            have hsuccof : normalSucc meta id
                = (deps.filter fun d =>
                    d.dep_kinds.any fun k => k == .normal).map fun d => d.pkg := by
              unfold normalSucc
              rw [hnode]
            have hstep : bfsAux meta (fuel + 1) (id :: rest) added result
                = bfsAux meta fuel
                    (((deps.filter fun d =>
                        d.dep_kinds.any fun k => k == .normal).map
                      fun d => d.pkg).reverse ++ rest)
                    (id :: added) (result ++ [p]) := by
              simp [bfsAux, hmem, hfind, hnode]
            rw [hstep]
            apply ih
            · refine ⟨?_, ?_, ?_, ?_, ?_, List.nodup_cons.mpr ⟨hmem, h6⟩, ?_, ?_⟩
              · intro i hi
                rcases List.mem_append.mp hi with hi | hi
                · have hin : i ∈ normalSucc meta id := by
                    rw [hsuccof]
                    exact List.mem_reverse.mp hi
                  exact Reachable.step (h1 id (List.mem_cons_self _ _)) hin
                · exact h1 i (List.mem_cons_of_mem _ hi)
              · intro i hi
                rcases List.mem_cons.mp hi with he | hi
                · exact he ▸ h1 id (List.mem_cons_self _ _)
                · exact h2 i hi
              · intro i hi
                rcases List.mem_cons.mp hi with he | hi
                · refine he ▸ ⟨?_, ?_⟩
                  · rw [hfind]; rfl
                  · rw [hnode]; rfl
                · exact h3 i hi
              · intro a ha d hd
                rcases List.mem_cons.mp ha with he | ha
                · refine .inr (List.mem_append_left _ ?_)
                  apply List.mem_reverse.mpr
                  rw [← hsuccof]
                  exact he ▸ hd
                · rcases h4 a ha d hd with h | h
                  · exact .inl (List.mem_cons_of_mem _ h)
                  · rcases List.mem_cons.mp h with he | h
                    · exact .inl (he ▸ List.mem_cons_self _ _)
                    · exact .inr (List.mem_append_right _ h)
              · intro r hr
                rcases h5 r hr with h | h
                · exact .inl (List.mem_cons_of_mem _ h)
                · rcases List.mem_cons.mp h with he | h
                  · exact .inl (he ▸ List.mem_cons_self _ _)
                  · exact .inr (List.mem_append_right _ h)
              · have hmapp : (result ++ [p]).map (fun p => p.id)
                    = result.map (fun p => p.id) ++ [p.id] := by
                  simp
                rw [hmapp, List.reverse_append]
                simp only [List.reverse_singleton, List.singleton_append]
                rw [← h7, hpid]
              · intro q hq
                rcases List.mem_append.mp hq with hq | hq
                · exact h8 q hq
                · rcases List.mem_singleton.mp hq with rfl
                  rw [hpid]
                  exact hfind
            · have hlen : (((deps.filter fun d =>
                  d.dep_kinds.any fun k => k == .normal).map
                    fun d => d.pkg).reverse).length ≤ totalDeps meta := by
                rw [List.length_reverse, ← hsuccof]
                exact normalSucc_length_le meta id
              have hU : id ∈ meta.packages.map fun p => p.id := by
                have hp : p ∈ meta.packages := List.mem_of_find?_eq_some hfind
                exact hpid ▸ List.mem_map.mpr ⟨p, hp, rfl⟩
              have := bfsMeasure_new meta id rest added _ hlen hU hmem
              omega

theorem bfs_initial_inv (meta : Metadata) (roots : List Pkg) :
    BfsInv meta roots ((roots.map fun p => p.id).reverse) [] [] := by
  refine ⟨?_, ?_, ?_, ?_, ?_, List.nodup_nil, rfl, ?_⟩
  · intro i hi
    rcases List.mem_map.mp (List.mem_reverse.mp hi) with ⟨r, hr, he⟩
    exact he ▸ Reachable.root hr
  · intro i hi; cases hi
  · intro i hi; cases hi
  · intro a ha; cases ha
  · intro r hr
    exact .inr (List.mem_reverse.mpr (List.mem_map.mpr ⟨r, hr, rfl⟩))
  · intro p hp; cases hp

theorem bfs_initial_measure (meta : Metadata) (roots : List Pkg) :
    bfsMeasure meta ((roots.map fun p => p.id).reverse) []
      ≤ bfsBound meta roots := by
  unfold bfsMeasure bfsBound
  have hfix : ((meta.packages.map fun p => p.id).filter
      fun i => ¬ i ∈ ([] : List Nat)) = meta.packages.map fun p => p.id :=
    List.filter_eq_self.mpr fun a _ => by simp
  rw [hfix]
  simp

/-! ## Claim C8: the dependency closure -/

/-- **C8**: `get_root_dependencies` succeeds exactly when every id
reachable from the roots over normal-kind edges resolves in both `by_id`
lookups (a failing lookup is a fatal `PackageNotFound` error, never a
skip), and on success the returned packages' ids are exactly the
reachable ids — roots included, edges with only dev/build kinds never
followed — with no duplicates. -/
theorem c8_get_root_dependencies (meta : Metadata) (roots : List Pkg) :
    ((∃ out, getRootDependencies meta roots = .ok out) ↔
      (∀ id, Reachable meta roots id → lookupOk meta id)) ∧
    (∀ out, getRootDependencies meta roots = .ok out →
      ((∀ pid, pid ∈ out.map (fun p => p.id) ↔ Reachable meta roots pid) ∧
        (out.map fun p => p.id).Nodup)) := by
  have hmain := bfs_main meta roots (bfsBound meta roots)
    ((roots.map fun p => p.id).reverse) [] []
    (bfs_initial_inv meta roots) (bfs_initial_measure meta roots)
  constructor
  · constructor
    · rintro ⟨out, hout⟩ id hreach
      have hgood := hmain.2 out hout
      exact hgood.2.2.2 id ((hgood.1 id).mpr hreach)
    · intro hall
      exact hmain.1 hall
  · intro out hout
    have hgood := hmain.2 out hout
    exact ⟨hgood.1, hgood.2.1⟩

/-- **C8** witness: in the graph `a → b` (normal), `a → c` (dev only)
with root `a`, resolution returns exactly `{a, b}` and never follows the
dev edge to `c`. -/
theorem c8_witness :
    getRootDependencies
      { packages := [⟨0, "a", "1"⟩, ⟨1, "b", "1"⟩, ⟨2, "c", "1"⟩],
        nodes := [⟨0, [⟨1, [.normal]⟩, ⟨2, [.development]⟩]⟩, ⟨1, []⟩, ⟨2, []⟩] }
      [⟨0, "a", "1"⟩]
      = .ok [⟨0, "a", "1"⟩, ⟨1, "b", "1"⟩] ∧
    (∀ pid, pid ∈ ([⟨0, "a", "1"⟩, ⟨1, "b", "1"⟩] : List Pkg).map (fun p => p.id) ↔
      Reachable
        { packages := [⟨0, "a", "1"⟩, ⟨1, "b", "1"⟩, ⟨2, "c", "1"⟩],
          nodes := [⟨0, [⟨1, [.normal]⟩, ⟨2, [.development]⟩]⟩, ⟨1, []⟩, ⟨2, []⟩] }
        [⟨0, "a", "1"⟩] pid) :=
  ⟨rfl,
   ((c8_get_root_dependencies
      { packages := [⟨0, "a", "1"⟩, ⟨1, "b", "1"⟩, ⟨2, "c", "1"⟩],
        nodes := [⟨0, [⟨1, [.normal]⟩, ⟨2, [.development]⟩]⟩, ⟨1, []⟩, ⟨2, []⟩] }
      [⟨0, "a", "1"⟩]).2 [⟨0, "a", "1"⟩, ⟨1, "b", "1"⟩] rfl).1⟩

/-! ## Claim C3: the packages of a bundle -/

theorem pkgKeyLe_trans : ∀ a b c : Pkg, pkgKeyLe a b = true →
    pkgKeyLe b c = true → pkgKeyLe a c = true := by
  intro a b c hab hbc
  unfold pkgKeyLe at hab hbc ⊢
  simp only [Bool.or_eq_true, Bool.and_eq_true, decide_eq_true_eq,
    beq_iff_eq] at hab hbc ⊢
  rcases hab with hab | ⟨hab1, hab2⟩
  · rcases hbc with hbc | ⟨hbc1, hbc2⟩
    · exact .inl (hab.trans hbc)
    · exact .inl (hbc1 ▸ hab)
  · rcases hbc with hbc | ⟨hbc1, hbc2⟩
    · exact .inl (hab1 ▸ hbc)
    · exact .inr ⟨hab1.trans hbc1, hab2.trans hbc2⟩

theorem pkgKeyLe_total : ∀ a b : Pkg,
    pkgKeyLe a b = true ∨ pkgKeyLe b a = true := by
  intro a b
  unfold pkgKeyLe
  simp only [Bool.or_eq_true, Bool.and_eq_true, decide_eq_true_eq,
    beq_iff_eq]
  rcases lt_trichotomy a.name b.name with h | h | h
  · exact .inl (.inl h)
  · rcases le_total a.version b.version with hv | hv
    · exact .inl (.inr ⟨h, hv⟩)
    · exact .inr (.inr ⟨h.symm, hv⟩)
  · exact .inr (.inl h)

/-- **C3** (amended): when the assembler's package-collection pipeline
succeeds (and distinct packages in the metadata have distinct
`(name, version)` pairs, as cargo guarantees), the resulting list
contains exactly the packages of the normal-dependency closure of the
roots whose *name* differs from every root's name — the roots are
removed by name, so any same-named package of a different version is
removed too — sorted by `(name, version)` with no duplicate
`(name, version)` entries. -/
theorem c3_exec_packages (meta : Metadata) (roots : List Pkg)
    (hinj : ∀ p ∈ meta.packages, ∀ q ∈ meta.packages,
      p.name = q.name → p.version = q.version → p = q) :
    ∀ out, execPackages meta roots = .ok out →
      ((∀ p, p ∈ out ↔ (Reachable meta roots p.id ∧
          findPkg meta.packages p.id = some p ∧
          ¬ ∃ r ∈ roots, r.name = p.name)) ∧
        out.Pairwise (fun a b => pkgKeyLe a b = true) ∧
        (out.map fun p => (p.name, p.version)).Nodup) := by
  intro out hout
  unfold execPackages at hout
  cases hdeps : getRootDependencies meta roots with
  | error e => rw [hdeps] at hout; cases hout
  | ok deps =>
    rw [hdeps] at hout
    have hout2 : Except.ok (insertionSort pkgKeyLe
        (deps.filter fun p => !(roots.any fun r => r.name == p.name)))
        = (Except.ok out : Except BfsError (List Pkg)) := hout
    injection hout2 with hout2
    have hmain := bfs_main meta roots (bfsBound meta roots)
      ((roots.map fun p => p.id).reverse) [] []
      (bfs_initial_inv meta roots) (bfs_initial_measure meta roots)
    have hgood := hmain.2 deps hdeps
    have hfiltmem : ∀ p, p ∈ (deps.filter
        fun p => !(roots.any fun r => r.name == p.name)) ↔
        (p ∈ deps ∧ ¬ ∃ r ∈ roots, r.name = p.name) := by
      intro p
      rw [List.mem_filter]
      constructor
      · rintro ⟨hd, hp⟩
        refine ⟨hd, ?_⟩
        rintro ⟨r, hr, hname⟩
        have : (roots.any fun r => r.name == p.name) = true :=
          List.any_eq_true.mpr ⟨r, hr, beq_iff_eq.mpr hname⟩
        rw [this] at hp
        cases hp
      · rintro ⟨hd, hp⟩
        refine ⟨hd, ?_⟩
        cases hany : (roots.any fun r => r.name == p.name) with
        | false => rfl
        | true =>
          rcases List.any_eq_true.mp hany with ⟨r, hr, hname⟩
          exact absurd ⟨r, hr, beq_iff_eq.mp hname⟩ hp
    have hdepsmem : ∀ p, p ∈ deps ↔
        (Reachable meta roots p.id ∧ findPkg meta.packages p.id = some p) := by
      intro p
      constructor
      · intro hd
        exact ⟨(hgood.1 p.id).mp (List.mem_map.mpr ⟨p, hd, rfl⟩),
          hgood.2.2.1 p hd⟩
      · rintro ⟨hreach, hfind⟩
        have : p.id ∈ deps.map fun p => p.id := (hgood.1 p.id).mpr hreach
        rcases List.mem_map.mp this with ⟨q, hq, hqid⟩
        have hqfind := hgood.2.2.1 q hq
        rw [hqid] at hqfind
        rw [hfind] at hqfind
        injection hqfind with hqp
        exact hqp ▸ hq
    refine ⟨?_, ?_, ?_⟩
    · intro p
      rw [← hout2, mem_insertionSort, hfiltmem, hdepsmem]
      tauto
    · rw [← hout2]
      exact insertionSort_pairwise pkgKeyLe pkgKeyLe_trans pkgKeyLe_total _
    · have hnd : deps.Nodup := List.Nodup.of_map _ hgood.2.1
      have hndf : (deps.filter
          fun p => !(roots.any fun r => r.name == p.name)).Nodup :=
        List.Nodup.sublist (List.filter_sublist deps) hnd
      have hnds : out.Nodup := by
        rw [← hout2]
        exact ((insertionSort_perm pkgKeyLe _).nodup_iff).mpr hndf
      apply List.Nodup.map_on ?_ hnds
      intro x hx y hy hxy
      have hxmem : findPkg meta.packages x.id = some x :=
        (hdepsmem x).mp (((hfiltmem x).mp (by
          rw [← hout2] at hx
          exact (mem_insertionSort pkgKeyLe).mp hx)).1) |>.2
      have hymem : findPkg meta.packages y.id = some y :=
        (hdepsmem y).mp (((hfiltmem y).mp (by
          rw [← hout2] at hy
          exact (mem_insertionSort pkgKeyLe).mp hy)).1) |>.2
      have hxpkgs : x ∈ meta.packages := List.mem_of_find?_eq_some hxmem
      have hypkgs : y ∈ meta.packages := List.mem_of_find?_eq_some hymem
      injection hxy with h1 h2
      exact hinj x hxpkgs y hypkgs h1 h2

/-- **C3** counterexample to the claim as stated: with root `a@1.0.0`
depending (normal) on `a@0.5.0`, the closure minus the roots themselves
is `{a@0.5.0}`, but the assembler filters by *name* and returns the empty
list — the reachable non-root package is dropped. -/
theorem c3_counterexample :
    execPackages
      { packages := [⟨0, "a", "1.0.0"⟩, ⟨1, "a", "0.5.0"⟩],
        nodes := [⟨0, [⟨1, [.normal]⟩]⟩, ⟨1, []⟩] }
      [⟨0, "a", "1.0.0"⟩] = .ok [] ∧
    Reachable
      { packages := [⟨0, "a", "1.0.0"⟩, ⟨1, "a", "0.5.0"⟩],
        nodes := [⟨0, [⟨1, [.normal]⟩]⟩, ⟨1, []⟩] }
      [⟨0, "a", "1.0.0"⟩] 1 ∧
    (∀ r ∈ ([⟨0, "a", "1.0.0"⟩] : List Pkg), r.id ≠ 1) ∧
    findPkg [⟨0, "a", "1.0.0"⟩, ⟨1, "a", "0.5.0"⟩] 1 = some ⟨1, "a", "0.5.0"⟩ := by
  refine ⟨rfl, ?_, by decide, rfl⟩
  exact Reachable.step (i := 0)
    (Reachable.root (p := ⟨0, "a", "1.0.0"⟩) (List.mem_singleton.mpr rfl))
    (by decide)

/-- **C3** witness: the amended theorem applied to the graph
`a → b (normal), a → c (dev)` with root `a`: the result is `[b]` — the
closure minus the root's name, sorted, without duplicate keys. -/
theorem c3_witness :
    (∀ p, p ∈ ([⟨1, "b", "1"⟩] : List Pkg) ↔ (Reachable
        { packages := [⟨0, "a", "1"⟩, ⟨1, "b", "1"⟩, ⟨2, "c", "1"⟩],
          nodes := [⟨0, [⟨1, [.normal]⟩, ⟨2, [.development]⟩]⟩, ⟨1, []⟩, ⟨2, []⟩] }
        [⟨0, "a", "1"⟩] p.id ∧
      findPkg [⟨0, "a", "1"⟩, ⟨1, "b", "1"⟩, ⟨2, "c", "1"⟩] p.id = some p ∧
      ¬ ∃ r ∈ ([⟨0, "a", "1"⟩] : List Pkg), r.name = p.name)) ∧
    ([⟨1, "b", "1"⟩] : List Pkg).Pairwise (fun a b => pkgKeyLe a b = true) ∧
    (([⟨1, "b", "1"⟩] : List Pkg).map fun p => (p.name, p.version)).Nodup :=
  c3_exec_packages
    { packages := [⟨0, "a", "1"⟩, ⟨1, "b", "1"⟩, ⟨2, "c", "1"⟩],
      nodes := [⟨0, [⟨1, [.normal]⟩, ⟨2, [.development]⟩]⟩, ⟨1, []⟩, ⟨2, []⟩] }
    [⟨0, "a", "1"⟩] (by decide) [⟨1, "b", "1"⟩] rfl

end CargoBundleLicenses
